import Mathlib

/-!
A verification development for the Forth-like interpreter in
`src/forth/src/lib.rs`.

Embedding conventions:
* Rust `String` / `&str` values are embedded as `List Char` (`Str`); all
  slicing in the source that the claims exercise is on ASCII input, where
  byte indexes and char indexes coincide.  A separate byte-accurate model
  (`byteSplit`, the `C`-suffixed parsers and `evalC`) tracks the places where
  the source uses a char-counted position as a byte index, so that the panic
  behaviour on multi-byte characters can be analysed.
* `Value` (Rust `i32`) is embedded as `Int`.  The spec (§3, §9) declares the
  cell width and overflow behaviour implementation-chosen (≥ 32 bits,
  wraparound/trap unspecified, "reproduce host integer division semantics"),
  so the embedding uses unbounded integers and elides the `i32`/`u32` range
  check of `str::parse`; division is `Int.tdiv`, truncation toward zero,
  exactly Rust's `/`.
* `HashMap<String, String>` is embedded as an association list with
  `List.lookup`; `insert` is modelled by consing the new binding in front,
  which has the same lookup semantics as HashMap's replace-on-insert.
* `char::is_whitespace`, `char::is_control` are embedded exactly (the
  Unicode White_Space and Cc sets); `to_lowercase` and `is_numeric` are
  embedded by their ASCII restrictions, which agree with Rust on every ASCII
  character.
* Each `while let` loop of the source is embedded as a fuel-indexed
  recursion; a stage's public function supplies `input.length + 1` fuel,
  which is proved sufficient (each loop iteration strictly shortens the
  input).  The outer driver loop of `eval` is genuinely non-terminating on
  some inputs, so `evalLoop`/`eval` keep an explicit fuel parameter and
  return `none` when it runs out.
-/

abbrev Str := List Char

abbrev Value := Int

/-- Rust `char::is_whitespace`: the Unicode White_Space code points. -/
def isWs (c : Char) : Bool :=
  decide ((9 ≤ c.toNat ∧ c.toNat ≤ 13) ∨ c.toNat = 32 ∨ c.toNat = 133 ∨
    c.toNat = 160 ∨ c.toNat = 5760 ∨ (8192 ≤ c.toNat ∧ c.toNat ≤ 8202) ∨
    c.toNat = 8232 ∨ c.toNat = 8233 ∨ c.toNat = 8239 ∨ c.toNat = 8287 ∨
    c.toNat = 12288)

/-- Rust `char::is_control`: the Unicode Cc code points. -/
def isCtl (c : Char) : Bool :=
  decide (c.toNat ≤ 31 ∨ (127 ≤ c.toNat ∧ c.toNat ≤ 159))

/-- Rust `char::to_lowercase`, restricted to ASCII (agrees on all ASCII). -/
def lowerChar (c : Char) : Char :=
  if 65 ≤ c.toNat ∧ c.toNat ≤ 90 then Char.ofNat (c.toNat + 32) else c

/-- ASCII decimal digit. -/
def isDigitCh (c : Char) : Bool :=
  decide (48 ≤ c.toNat ∧ c.toNat ≤ 57)

/-- Rust `char::is_numeric`, restricted to ASCII (agrees on all ASCII). -/
def isNumericCh (c : Char) : Bool := isDigitCh c

def digitVal (c : Char) : Nat := c.toNat - 48

/-- Rust `str::trim_left` (= `trim_start`). -/
def trimLeft (l : Str) : Str := l.dropWhile isWs

/-- Helper for `str::trim`: trim trailing whitespace. -/
def trimRight (l : Str) : Str := (l.reverse.dropWhile isWs).reverse

/-- Rust `str::trim`: trim leading and trailing whitespace. -/
def trimBoth (l : Str) : Str := trimRight (trimLeft l)

/-- Rust `Iterator::position`: index of the first element satisfying `p`. -/
def position (p : Char → Bool) : Str → Option Nat
  | [] => none
  | c :: cs => if p c then some 0 else (position p cs).map (· + 1)

/-- Parse a nonempty all-digit string as a natural number. -/
def parseNatDigits (l : Str) : Option Nat :=
  if l ≠ [] ∧ l.all isDigitCh then
    some (l.foldl (fun a c => a * 10 + digitVal c) 0)
  else none

/-- Rust `str::parse::<i32>`: optional sign then digits (range check elided,
see the header note on `Value`). -/
def parseIntR (l : Str) : Option Int :=
  match l with
  | [] => none
  | c :: rest =>
    if c = '-' then (parseNatDigits rest).map (fun n => -(n : Int))
    else if c = '+' then (parseNatDigits rest).map (fun n => (n : Int))
    else (parseNatDigits l).map (fun n => (n : Int))

/-- Rust `str::parse::<u32>`: optional `+` then digits (range check elided). -/
def parseU32R (l : Str) : Option Nat :=
  match l with
  | [] => none
  | c :: _ => if c = '+' then parseNatDigits l.tail else parseNatDigits l

inductive Operator where
  | Plus | Minus | Divide | Multiply
deriving DecidableEq, Repr

inductive Command where
  | Dropp | Dup | Swap | Over
  | Word : Str → Str → Command
deriving DecidableEq, Repr

inductive Error where
  | DivisionByZero | StackUnderflow | UnknownWord | InvalidWord
deriving DecidableEq, Repr

/-- Interpreter state: `stack` keeps the top at the head (Rust's `Vec` keeps
it at the end); `words` is the dictionary, most recent binding first. -/
structure Forth where
  stack : List Value
  words : List (Str × Str)
deriving DecidableEq, Repr

def Forth.new : Forth := ⟨[], []⟩

/-- Rust `Forth::stack()`: snapshot, oldest-pushed element first. -/
def Forth.stackSnapshot (f : Forth) : List Value := f.stack.reverse

/-- `Forth::filter_non_words`: every whitespace or control character becomes
a plain space. -/
def filter_non_words (input : Str) : Str :=
  input.map (fun c => if isWs c || isCtl c then ' ' else c)

/-- `Forth::parse_digit`. -/
def parse_digit (input : Str) : Option Value × Str :=
  match position isWs input with
  | some p =>
    let head := input.take p
    let tail := input.drop p
    match parseIntR head with
    | some v => (some v, trimLeft tail)
    | none => (none, trimBoth input)
  | none =>
    match parseIntR input with
    | some v => (some v, [])
    | none => (none, input)

/-- `Forth::parse_operator`. -/
def parse_operator (input : Str) : Option Operator × Str :=
  match input with
  | [] => (none, [])
  | c :: rest =>
    let tail := trimLeft rest
    if c = '+' then (some .Plus, tail)
    else if c = '-' then (some .Minus, tail)
    else if c = '/' then (some .Divide, tail)
    else if c = '*' then (some .Multiply, tail)
    else (none, input)

/-- `Forth::parse_command`. -/
def parse_command (input : Str) : Except Error (Option Command × Str) :=
  match input with
  | [] => .ok (none, [])
  | _ =>
    let hd :=
      match position isWs input with
      | some p => ((input.take p).map lowerChar, trimLeft (input.drop p))
      | none => (input.map lowerChar, ([] : Str))
    if hd.1 = ['d', 'r', 'o', 'p'] then .ok (some .Dropp, hd.2)
    else if hd.1 = ['d', 'u', 'p'] then .ok (some .Dup, hd.2)
    else if hd.1 = ['s', 'w', 'a', 'p'] then .ok (some .Swap, hd.2)
    else if hd.1 = ['o', 'v', 'e', 'r'] then .ok (some .Over, hd.2)
    else if (parseU32R hd.1).isSome then .ok (none, [])
    else .error .UnknownWord

/-- `Forth::parse_word_delcaration` (sic). -/
def parse_word_delcaration (input : Str) : Except Error (Option Command × Str) :=
  match input with
  | [] => .ok (none, [])
  | c0 :: _ =>
    if c0 ≠ ':' then .ok (none, [])
    else
      let body := trimBoth ((input.drop 1).takeWhile (fun c => c != ';'))
      let rest := trimBoth ((input.dropWhile (fun c => c != ';')).drop 1)
      let key := body.takeWhile (fun c => c != ' ')
      let value := (body.dropWhile (fun c => c != ' ')).drop 1
      let contains_terminator := input.any (fun c => c = ';')
      if ¬contains_terminator ∨ body = [] ∨ value = [] then .error .InvalidWord
      else
        match key.head? with
        | some k0 =>
          if isNumericCh k0 then .error .InvalidWord
          else .ok (some (.Word (key.map lowerChar) value), rest)
        | none => .error .InvalidWord

/-- `Forth::parse_word`: dictionary lookup of the first token. -/
def parse_word (words : List (Str × Str)) (input : Str) : Option Str × Str :=
  let hd :=
    match position isWs input with
    | some p => (input.take p, input.drop p)
    | none => (input, ([] : Str))
  match words.lookup (hd.1.map lowerChar) with
  | some v => (some (v ++ hd.2), [])
  | none => (none, input)

/-- The loop of `Forth::eval_digits`, fuel-indexed. -/
def evalDigitsGo : Nat → Forth → Str → Forth × Str
  | 0, f, input => (f, input)
  | n + 1, f, input =>
    match parse_digit input with
    | (some v, tail) => evalDigitsGo n ⟨v :: f.stack, f.words⟩ tail
    | (none, _) => (f, input)

/-- `Forth::eval_digits`. -/
def eval_digits (f : Forth) (input : Str) : Forth × Str :=
  evalDigitsGo (input.length + 1) f input

/-- The loop of `Forth::eval_operators`, fuel-indexed.  An error result
carries the state as it stood at the failure point (the pops that preceded
the error have already happened). -/
def evalOperatorsGo : Nat → Forth → Str → Forth × Except Error Str
  | 0, f, input => (f, .ok input)
  | n + 1, f, input =>
    match parse_operator input with
    | (none, _) => (f, .ok input)
    | (some op, tail) =>
      match f.stack with
      | [] => (f, .error .StackUnderflow)
      | [_] => (⟨[], f.words⟩, .error .StackUnderflow)
      | v2 :: v1 :: st =>
        match op with
        | .Plus => evalOperatorsGo n ⟨(v1 + v2) :: st, f.words⟩ tail
        | .Minus => evalOperatorsGo n ⟨(v1 - v2) :: st, f.words⟩ tail
        | .Divide =>
          if v2 = 0 then (⟨st, f.words⟩, .error .DivisionByZero)
          else evalOperatorsGo n ⟨Int.tdiv v1 v2 :: st, f.words⟩ tail
        | .Multiply => evalOperatorsGo n ⟨(v1 * v2) :: st, f.words⟩ tail

/-- `Forth::eval_operators`. -/
def eval_operators (f : Forth) (input : Str) : Forth × Except Error Str :=
  evalOperatorsGo (input.length + 1) f input

/-- The loop of `Forth::eval_word_declarations`, fuel-indexed. -/
def evalWordDeclsGo : Nat → Forth → Str → Forth × Except Error Str
  | 0, f, input => (f, .ok input)
  | n + 1, f, input =>
    match parse_word_delcaration input with
    | .error e => (f, .error e)
    | .ok (some (.Word k v), tail) =>
      evalWordDeclsGo n ⟨f.stack, (k, v) :: f.words⟩ tail
    | .ok _ => (f, .ok input)

/-- `Forth::eval_word_declarations`. -/
def eval_word_declarations (f : Forth) (input : Str) : Forth × Except Error Str :=
  evalWordDeclsGo (input.length + 1) f input

/-- `Forth::eval_word`: at most one dictionary expansion per call. -/
def eval_word (f : Forth) (input : Str) : Forth × Except Error Str :=
  match parse_word f.words input with
  | (some value, tail) => (f, .ok (value ++ tail))
  | (none, _) => (f, .ok input)

/-- The loop of `Forth::eval_commands`, fuel-indexed.  Error results carry
the state at the failure point. -/
def evalCommandsGo : Nat → Forth → Str → Forth × Except Error Str
  | 0, f, input => (f, .ok input)
  | n + 1, f, input =>
    match parse_command input with
    | .error e => (f, .error e)
    | .ok (none, _) => (f, .ok input)
    | .ok (some cmd, tail) =>
      match cmd with
      | .Swap =>
        match f.stack with
        | [] => (f, .error .StackUnderflow)
        | [_] => (⟨[], f.words⟩, .error .StackUnderflow)
        | v2 :: v1 :: st => evalCommandsGo n ⟨v1 :: v2 :: st, f.words⟩ tail
      | .Dropp =>
        match f.stack with
        | [] => (f, .error .StackUnderflow)
        | _ :: st => evalCommandsGo n ⟨st, f.words⟩ tail
      | .Dup =>
        match f.stack with
        | [] => (f, .error .StackUnderflow)
        | v :: st => evalCommandsGo n ⟨v :: v :: st, f.words⟩ tail
      | .Over =>
        match f.stack with
        | [] => (f, .error .StackUnderflow)
        | [_] => (⟨[], f.words⟩, .error .StackUnderflow)
        | v2 :: v1 :: st =>
          evalCommandsGo n ⟨v1 :: v2 :: v1 :: st, f.words⟩ tail
      | .Word k v => evalCommandsGo n ⟨f.stack, (k, v) :: f.words⟩ tail

/-- `Forth::eval_commands`. -/
def eval_commands (f : Forth) (input : Str) : Forth × Except Error Str :=
  evalCommandsGo (input.length + 1) f input

/-- One iteration of the `while` loop in `Forth::eval`: the five stages in
order, each `?` propagating an error immediately. -/
def evalPass (f : Forth) (input : Str) : Forth × Except Error Str :=
  let d := eval_digits f input
  match eval_operators d.1 d.2 with
  | (f2, .error e) => (f2, .error e)
  | (f2, .ok input2) =>
    match eval_word_declarations f2 input2 with
    | (f3, .error e) => (f3, .error e)
    | (f3, .ok input3) =>
      match eval_word f3 input3 with
      | (f4, .error e) => (f4, .error e)
      | (f4, .ok input4) => eval_commands f4 input4

/-- The `while !input.is_empty()` loop of `Forth::eval`.  `none` means the
fuel ran out; `some (f, none)` is `Ok(())` with final state `f`;
`some (f, some e)` is `Err(e)` with the state as it stood at the failure. -/
def evalLoop : Nat → Forth → Str → Option (Forth × Option Error)
  | 0, _, _ => none
  | n + 1, f, input =>
    if input = [] then some (f, none)
    else
      match evalPass f input with
      | (f', .error e) => some (f', some e)
      | (f', .ok input') => evalLoop n f' input'

/-- `Forth::eval`, fuel-indexed on the number of outer loop iterations. -/
def eval (fuel : Nat) (f : Forth) (input : Str) : Option (Forth × Option Error) :=
  evalLoop fuel f (filter_non_words input)

/-- The call `evaluate(input)` on state `f` terminates. -/
def Terminates (f : Forth) (input : Str) : Prop :=
  ∃ n, (eval n f input).isSome

example : eval 3 Forth.new "1 2 over".data = some (⟨[1, 2, 1], []⟩, none) := by
  decide

example :
    eval 5 Forth.new ": dup-twice dup dup ; 5 dup-twice".data =
      some (⟨[5, 5, 5], [("dup-twice".data, "dup dup".data)]⟩, none) := by
  decide

example : eval 3 Forth.new "5 0 /".data = some (⟨[], []⟩, some .DivisionByZero) := by
  decide

example : eval 3 Forth.new "1 2 swap".data = some (⟨[1, 2], []⟩, none) := by
  decide

example : eval 3 Forth.new "7 3 /".data = some (⟨[2], []⟩, none) := by
  decide

example : eval 3 Forth.new "foo".data = some (⟨[], []⟩, some .UnknownWord) := by
  decide

/-! ### Basic length facts -/

theorem length_trimLeft_le (l : Str) : (trimLeft l).length ≤ l.length :=
  (List.dropWhile_sublist (l := l) (p := isWs)).length_le

theorem length_trimRight_le (l : Str) : (trimRight l).length ≤ l.length := by
  have h := (List.dropWhile_sublist (l := l.reverse) (p := isWs)).length_le
  simpa [trimRight] using h

theorem length_trimBoth_le (l : Str) : (trimBoth l).length ≤ l.length :=
  le_trans (length_trimRight_le _) (length_trimLeft_le _)

theorem parseIntR_ne_nil {l : Str} {v : Int} (h : parseIntR l = some v) : l ≠ [] := by
  intro he; subst he; simp [parseIntR] at h

theorem take_ne_nil_pos {l : Str} {p : Nat} (h : l.take p ≠ []) :
    p ≠ 0 ∧ l ≠ [] := by
  constructor <;> rintro rfl <;> simp at h

/-! ### Strict input decrease of each loop iteration -/

/-- The char at the first whitespace position is whitespace, so trimming
left from there on strictly shortens a nonempty input. -/
theorem position_isWs_drop {input : Str} {p : Nat}
    (h : position isWs input = some p) :
    (trimLeft (input.drop p)).length < input.length := by
  induction input generalizing p with
  | nil => simp [position] at h
  | cons c cs ih =>
    by_cases hc : isWs c
    · have hp0 : p = 0 := by simp [position, hc] at h; omega
      subst hp0
      have hle : (List.dropWhile isWs cs).length ≤ cs.length :=
        (List.dropWhile_sublist (l := cs) (p := isWs)).length_le
      simp only [List.drop_zero, trimLeft, List.dropWhile_cons, hc, if_true,
        List.length_cons]
      omega
    · rw [show position isWs (c :: cs) = (position isWs cs).map (· + 1) by
        simp [position, hc]] at h
      rw [Option.map_eq_some'] at h
      obtain ⟨q, hq, rfl⟩ := h
      have := ih hq
      simp only [List.drop_succ_cons, List.length_cons]
      omega

theorem parse_digit_some_length {input : Str} {v : Value} {tail : Str}
    (h : parse_digit input = (some v, tail)) : tail.length < input.length := by
  cases hpos : position isWs input with
  | none =>
    simp only [parse_digit, hpos] at h
    cases hp : parseIntR input with
    | none => rw [hp] at h; simp at h
    | some w =>
      rw [hp] at h
      obtain ⟨-, rfl⟩ : some w = some v ∧ ([] : Str) = tail := by
        simpa using h
      have := parseIntR_ne_nil hp
      simp [List.length_pos, this]
  | some p =>
    simp only [parse_digit, hpos] at h
    cases hp : parseIntR (input.take p) with
    | none => rw [hp] at h; simp at h
    | some w =>
      rw [hp] at h
      obtain ⟨-, rfl⟩ : some w = some v ∧ trimLeft (input.drop p) = tail := by
        simpa using h
      exact position_isWs_drop hpos

theorem parse_operator_some_length {input : Str} {op : Operator} {tail : Str}
    (h : parse_operator input = (some op, tail)) : tail.length < input.length := by
  cases input with
  | nil => simp [parse_operator] at h
  | cons c rest =>
    have hle := length_trimLeft_le rest
    simp only [parse_operator] at h
    split_ifs at h <;> simp only [Prod.mk.injEq] at h <;>
      first
      | exact Option.noConfusion h.1
      | (obtain ⟨-, rfl⟩ := h
         simp only [List.length_cons]
         omega)

theorem parse_command_some_length {input : Str} {cmd : Command} {tail : Str}
    (h : parse_command input = .ok (some cmd, tail)) : tail.length < input.length := by
  cases input with
  | nil => simp [parse_command] at h
  | cons c rest =>
    cases hpos : position isWs (c :: rest) with
    | none =>
      simp only [parse_command, hpos] at h
      split_ifs at h <;> simp_all [List.length_pos]
    | some p =>
      have hdec := position_isWs_drop hpos
      simp only [parse_command, hpos] at h
      split_ifs at h <;> simp only [Except.ok.injEq, Prod.mk.injEq] at h
      all_goals first
        | (obtain ⟨-, rfl⟩ := h; exact hdec)
        | simp_all

theorem parse_word_decl_ok_some {input : Str} {cmd : Command} {tail : Str}
    (h : parse_word_delcaration input = .ok (some cmd, tail)) :
    tail = trimBoth ((input.dropWhile (fun c => c != ';')).drop 1) ∧ input ≠ [] := by
  cases input with
  | nil => simp [parse_word_delcaration] at h
  | cons c0 rest =>
    refine ⟨?_, by simp⟩
    by_cases hcol : c0 ≠ ':'
    · simp [parse_word_delcaration, hcol] at h
    · simp only [parse_word_delcaration, if_neg hcol] at h
      by_cases hbad : ¬((c0 :: rest).any fun c => decide (c = ';')) = true ∨
          trimBoth (((c0 :: rest).drop 1).takeWhile (fun c => c != ';')) = [] ∨
          ((trimBoth (((c0 :: rest).drop 1).takeWhile (fun c => c != ';'))).dropWhile
            (fun c => c != ' ')).drop 1 = []
      · rw [if_pos hbad] at h
        exact Except.noConfusion h
      · rw [if_neg hbad] at h
        split at h
        next k0 hk =>
          by_cases hnum : isNumericCh k0 = true
          · rw [if_pos hnum] at h
            exact Except.noConfusion h
          · rw [if_neg hnum] at h
            injection h with h1
            injection h1 with h1 h2
            exact h2.symm
        next hk => exact Except.noConfusion h

theorem parse_word_decl_some_length {input : Str} {cmd : Command} {tail : Str}
    (h : parse_word_delcaration input = .ok (some cmd, tail)) :
    tail.length < input.length := by
  obtain ⟨rfl, hne⟩ := parse_word_decl_ok_some h
  have h1 := length_trimBoth_le ((input.dropWhile (fun c => c != ';')).drop 1)
  have h2 : ((input.dropWhile (fun c => c != ';')).drop 1).length =
      (input.dropWhile (fun c => c != ';')).length - 1 := List.length_drop 1 _
  have h3 := (List.dropWhile_sublist (l := input) (p := fun c => c != ';')).length_le
  have h4 : 0 < input.length := List.length_pos.2 hne
  omega

theorem parse_word_decl_some_length2 {input : Str} {cmd : Command} {tail : Str}
    (h : parse_word_delcaration input = .ok (some cmd, tail)) :
    tail.length < input.length := parse_word_decl_some_length h

/-! ### Fuel irrelevance: each stage loop is insensitive to extra fuel -/

theorem evalDigitsGo_irrel :
    ∀ (n : Nat) {m : Nat} (f : Forth) (input : Str), input.length < n →
      input.length < m → evalDigitsGo n f input = evalDigitsGo m f input := by
  intro n
  induction n with
  | zero => intro m f input h _; omega
  | succ n ih =>
    intro m f input hn hm
    cases m with
    | zero => omega
    | succ m =>
      simp only [evalDigitsGo]
      cases hp : parse_digit input with
      | mk o tail =>
        cases o with
        | none => rfl
        | some v =>
          have hlt := parse_digit_some_length hp
          exact ih _ _ (by omega) (by omega)

theorem evalOperatorsGo_irrel :
    ∀ (n : Nat) {m : Nat} (f : Forth) (input : Str), input.length < n →
      input.length < m → evalOperatorsGo n f input = evalOperatorsGo m f input := by
  intro n
  induction n with
  | zero => intro m f input h _; omega
  | succ n ih =>
    intro m f input hn hm
    cases m with
    | zero => omega
    | succ m =>
      simp only [evalOperatorsGo]
      cases hp : parse_operator input with
      | mk o tail =>
        cases o with
        | none => rfl
        | some op =>
          have hlt := parse_operator_some_length hp
          cases hs : f.stack with
          | nil => rfl
          | cons v2 rest =>
            cases rest with
            | nil => rfl
            | cons v1 st =>
              cases op with
              | Plus => exact ih _ _ (by omega) (by omega)
              | Minus => exact ih _ _ (by omega) (by omega)
              | Multiply => exact ih _ _ (by omega) (by omega)
              | Divide =>
                dsimp only
                by_cases hz : v2 = 0
                · rw [if_pos hz, if_pos hz]
                · rw [if_neg hz, if_neg hz]
                  exact ih _ _ (by omega) (by omega)

theorem evalWordDeclsGo_irrel :
    ∀ (n : Nat) {m : Nat} (f : Forth) (input : Str), input.length < n →
      input.length < m → evalWordDeclsGo n f input = evalWordDeclsGo m f input := by
  intro n
  induction n with
  | zero => intro m f input h _; omega
  | succ n ih =>
    intro m f input hn hm
    cases m with
    | zero => omega
    | succ m =>
      simp only [evalWordDeclsGo]
      cases hp : parse_word_delcaration input with
      | error e => rfl
      | ok res =>
        cases res with
        | mk o tail =>
          cases o with
          | none => rfl
          | some cmd =>
            have hlt := parse_word_decl_some_length hp
            cases cmd with
            | Dropp => rfl
            | Dup => rfl
            | Swap => rfl
            | Over => rfl
            | Word k v => exact ih _ _ (by omega) (by omega)

theorem evalCommandsGo_irrel :
    ∀ (n : Nat) {m : Nat} (f : Forth) (input : Str), input.length < n →
      input.length < m → evalCommandsGo n f input = evalCommandsGo m f input := by
  intro n
  induction n with
  | zero => intro m f input h _; omega
  | succ n ih =>
    intro m f input hn hm
    cases m with
    | zero => omega
    | succ m =>
      simp only [evalCommandsGo]
      cases hp : parse_command input with
      | error e => rfl
      | ok res =>
        cases res with
        | mk o tail =>
          cases o with
          | none => rfl
          | some cmd =>
            have hlt := parse_command_some_length hp
            cases cmd with
            | Word k v => exact ih _ _ (by omega) (by omega)
            | Dropp =>
              cases f.stack with
              | nil => rfl
              | cons v st => exact ih _ _ (by omega) (by omega)
            | Dup =>
              cases f.stack with
              | nil => rfl
              | cons v st => exact ih _ _ (by omega) (by omega)
            | Swap =>
              cases f.stack with
              | nil => rfl
              | cons v2 rest =>
                cases rest with
                | nil => rfl
                | cons v1 st => exact ih _ _ (by omega) (by omega)
            | Over =>
              cases f.stack with
              | nil => rfl
              | cons v2 rest =>
                cases rest with
                | nil => rfl
                | cons v1 st => exact ih _ _ (by omega) (by omega)

/-! ### Step and stop equations for the stage functions -/

theorem eval_digits_of_some {input : Str} {v : Value} {tail : Str}
    (h : parse_digit input = (some v, tail)) (f : Forth) :
    eval_digits f input = eval_digits ⟨v :: f.stack, f.words⟩ tail := by
  have hlt := parse_digit_some_length h
  unfold eval_digits
  rw [evalDigitsGo_irrel (tail.length + 1) (m := input.length) _ _ (by omega) hlt]
  simp only [evalDigitsGo, h]

theorem eval_digits_of_none {input r : Str} (h : parse_digit input = (none, r))
    (f : Forth) : eval_digits f input = (f, input) := by
  unfold eval_digits
  simp only [evalDigitsGo, h]

theorem eval_operators_of_none {input r : Str}
    (h : parse_operator input = (none, r)) (f : Forth) :
    eval_operators f input = (f, .ok input) := by
  unfold eval_operators
  simp only [evalOperatorsGo, h]

theorem eval_operators_underflow0 {input tail : Str} {op : Operator}
    (h : parse_operator input = (some op, tail)) (w : List (Str × Str)) :
    eval_operators ⟨[], w⟩ input = (⟨[], w⟩, .error .StackUnderflow) := by
  unfold eval_operators
  simp only [evalOperatorsGo, h]

theorem eval_operators_underflow1 {input tail : Str} {op : Operator}
    (h : parse_operator input = (some op, tail)) (v : Value) (w : List (Str × Str)) :
    eval_operators ⟨[v], w⟩ input = (⟨[], w⟩, .error .StackUnderflow) := by
  unfold eval_operators
  simp only [evalOperatorsGo, h]

theorem eval_operators_plus {input tail : Str}
    (h : parse_operator input = (some .Plus, tail)) (v2 v1 : Value)
    (st : List Value) (w : List (Str × Str)) :
    eval_operators ⟨v2 :: v1 :: st, w⟩ input =
      eval_operators ⟨(v1 + v2) :: st, w⟩ tail := by
  have hlt := parse_operator_some_length h
  unfold eval_operators
  rw [evalOperatorsGo_irrel (tail.length + 1) (m := input.length) _ _ (by omega) hlt]
  simp only [evalOperatorsGo, h]

theorem eval_operators_minus {input tail : Str}
    (h : parse_operator input = (some .Minus, tail)) (v2 v1 : Value)
    (st : List Value) (w : List (Str × Str)) :
    eval_operators ⟨v2 :: v1 :: st, w⟩ input =
      eval_operators ⟨(v1 - v2) :: st, w⟩ tail := by
  have hlt := parse_operator_some_length h
  unfold eval_operators
  rw [evalOperatorsGo_irrel (tail.length + 1) (m := input.length) _ _ (by omega) hlt]
  simp only [evalOperatorsGo, h]

theorem eval_operators_mult {input tail : Str}
    (h : parse_operator input = (some .Multiply, tail)) (v2 v1 : Value)
    (st : List Value) (w : List (Str × Str)) :
    eval_operators ⟨v2 :: v1 :: st, w⟩ input =
      eval_operators ⟨(v1 * v2) :: st, w⟩ tail := by
  have hlt := parse_operator_some_length h
  unfold eval_operators
  rw [evalOperatorsGo_irrel (tail.length + 1) (m := input.length) _ _ (by omega) hlt]
  simp only [evalOperatorsGo, h]

theorem eval_operators_div {input tail : Str}
    (h : parse_operator input = (some .Divide, tail)) {v2 : Value}
    (hz : v2 ≠ 0) (v1 : Value) (st : List Value) (w : List (Str × Str)) :
    eval_operators ⟨v2 :: v1 :: st, w⟩ input =
      eval_operators ⟨Int.tdiv v1 v2 :: st, w⟩ tail := by
  have hlt := parse_operator_some_length h
  unfold eval_operators
  rw [evalOperatorsGo_irrel (tail.length + 1) (m := input.length) _ _ (by omega) hlt]
  simp only [evalOperatorsGo, h]
  rw [if_neg hz]

theorem eval_operators_divzero {input tail : Str}
    (h : parse_operator input = (some .Divide, tail)) (v1 : Value)
    (st : List Value) (w : List (Str × Str)) :
    eval_operators ⟨0 :: v1 :: st, w⟩ input = (⟨st, w⟩, .error .DivisionByZero) := by
  unfold eval_operators
  simp only [evalOperatorsGo, h]
  simp

theorem eval_word_declarations_of_error {input : Str} {e : Error}
    (h : parse_word_delcaration input = .error e) (f : Forth) :
    eval_word_declarations f input = (f, .error e) := by
  unfold eval_word_declarations
  simp only [evalWordDeclsGo, h]

theorem eval_word_declarations_of_none {input r : Str}
    (h : parse_word_delcaration input = .ok (none, r)) (f : Forth) :
    eval_word_declarations f input = (f, .ok input) := by
  unfold eval_word_declarations
  simp only [evalWordDeclsGo, h]

theorem eval_word_declarations_of_word {input tail : Str} {k v : Str}
    (h : parse_word_delcaration input = .ok (some (.Word k v), tail)) (f : Forth) :
    eval_word_declarations f input =
      eval_word_declarations ⟨f.stack, (k, v) :: f.words⟩ tail := by
  have hlt := parse_word_decl_some_length h
  unfold eval_word_declarations
  rw [evalWordDeclsGo_irrel (tail.length + 1) (m := input.length) _ _ (by omega) hlt]
  simp only [evalWordDeclsGo, h]

theorem eval_commands_of_error {input : Str} {e : Error}
    (h : parse_command input = .error e) (f : Forth) :
    eval_commands f input = (f, .error e) := by
  unfold eval_commands
  simp only [evalCommandsGo, h]

theorem eval_commands_of_none {input r : Str}
    (h : parse_command input = .ok (none, r)) (f : Forth) :
    eval_commands f input = (f, .ok input) := by
  unfold eval_commands
  simp only [evalCommandsGo, h]

theorem eval_commands_drop {input tail : Str}
    (h : parse_command input = .ok (some .Dropp, tail)) (v : Value)
    (st : List Value) (w : List (Str × Str)) :
    eval_commands ⟨v :: st, w⟩ input = eval_commands ⟨st, w⟩ tail := by
  have hlt := parse_command_some_length h
  unfold eval_commands
  rw [evalCommandsGo_irrel (tail.length + 1) (m := input.length) _ _ (by omega) hlt]
  simp only [evalCommandsGo, h]

theorem eval_commands_drop_underflow {input tail : Str}
    (h : parse_command input = .ok (some .Dropp, tail)) (w : List (Str × Str)) :
    eval_commands ⟨[], w⟩ input = (⟨[], w⟩, .error .StackUnderflow) := by
  unfold eval_commands
  simp only [evalCommandsGo, h]

theorem eval_commands_dup {input tail : Str}
    (h : parse_command input = .ok (some .Dup, tail)) (v : Value)
    (st : List Value) (w : List (Str × Str)) :
    eval_commands ⟨v :: st, w⟩ input = eval_commands ⟨v :: v :: st, w⟩ tail := by
  have hlt := parse_command_some_length h
  unfold eval_commands
  rw [evalCommandsGo_irrel (tail.length + 1) (m := input.length) _ _ (by omega) hlt]
  simp only [evalCommandsGo, h]

theorem eval_commands_dup_underflow {input tail : Str}
    (h : parse_command input = .ok (some .Dup, tail)) (w : List (Str × Str)) :
    eval_commands ⟨[], w⟩ input = (⟨[], w⟩, .error .StackUnderflow) := by
  unfold eval_commands
  simp only [evalCommandsGo, h]

theorem eval_commands_swap {input tail : Str}
    (h : parse_command input = .ok (some .Swap, tail)) (v2 v1 : Value)
    (st : List Value) (w : List (Str × Str)) :
    eval_commands ⟨v2 :: v1 :: st, w⟩ input =
      eval_commands ⟨v1 :: v2 :: st, w⟩ tail := by
  have hlt := parse_command_some_length h
  unfold eval_commands
  rw [evalCommandsGo_irrel (tail.length + 1) (m := input.length) _ _ (by omega) hlt]
  simp only [evalCommandsGo, h]

theorem eval_commands_swap_underflow0 {input tail : Str}
    (h : parse_command input = .ok (some .Swap, tail)) (w : List (Str × Str)) :
    eval_commands ⟨[], w⟩ input = (⟨[], w⟩, .error .StackUnderflow) := by
  unfold eval_commands
  simp only [evalCommandsGo, h]

theorem eval_commands_swap_underflow1 {input tail : Str}
    (h : parse_command input = .ok (some .Swap, tail)) (v : Value)
    (w : List (Str × Str)) :
    eval_commands ⟨[v], w⟩ input = (⟨[], w⟩, .error .StackUnderflow) := by
  unfold eval_commands
  simp only [evalCommandsGo, h]

theorem eval_commands_over {input tail : Str}
    (h : parse_command input = .ok (some .Over, tail)) (v2 v1 : Value)
    (st : List Value) (w : List (Str × Str)) :
    eval_commands ⟨v2 :: v1 :: st, w⟩ input =
      eval_commands ⟨v1 :: v2 :: v1 :: st, w⟩ tail := by
  have hlt := parse_command_some_length h
  unfold eval_commands
  rw [evalCommandsGo_irrel (tail.length + 1) (m := input.length) _ _ (by omega) hlt]
  simp only [evalCommandsGo, h]

theorem eval_commands_over_underflow0 {input tail : Str}
    (h : parse_command input = .ok (some .Over, tail)) (w : List (Str × Str)) :
    eval_commands ⟨[], w⟩ input = (⟨[], w⟩, .error .StackUnderflow) := by
  unfold eval_commands
  simp only [evalCommandsGo, h]

theorem eval_commands_over_underflow1 {input tail : Str}
    (h : parse_command input = .ok (some .Over, tail)) (v : Value)
    (w : List (Str × Str)) :
    eval_commands ⟨[v], w⟩ input = (⟨[], w⟩, .error .StackUnderflow) := by
  unfold eval_commands
  simp only [evalCommandsGo, h]

/-! ### Decimal rendering of integers and its round trip through the parser -/

/-- Canonical decimal rendering of a natural number (digits of `Nat.digits`,
most significant first). -/
def natStr (n : Nat) : Str :=
  if n = 0 then ['0']
  else ((Nat.digits 10 n).map (fun d => Char.ofNat (48 + d))).reverse

/-- Canonical decimal rendering of an integer. -/
def intStr : Int → Str
  | .ofNat n => natStr n
  | .negSucc m => '-' :: natStr (m + 1)

theorem digitChar_facts {d : Nat} (h : d < 10) :
    isDigitCh (Char.ofNat (48 + d)) = true ∧ digitVal (Char.ofNat (48 + d)) = d := by
  interval_cases d <;> exact ⟨by decide, by decide⟩

theorem isDigitCh_not_isWs {c : Char} (h : isDigitCh c = true) : isWs c = false := by
  simp only [isDigitCh, decide_eq_true_eq] at h
  simp only [isWs, decide_eq_false_iff_not]
  omega

theorem isDigitCh_not_isCtl {c : Char} (h : isDigitCh c = true) : isCtl c = false := by
  simp only [isDigitCh, decide_eq_true_eq] at h
  simp only [isCtl, decide_eq_false_iff_not]
  omega

theorem isDigitCh_ne {c : Char} (h : isDigitCh c = true) : c ≠ '-' ∧ c ≠ '+' := by
  simp only [isDigitCh, decide_eq_true_eq] at h
  constructor <;> rintro rfl <;> simp at h

theorem natStr_all_digit (n : Nat) : (natStr n).all isDigitCh = true := by
  unfold natStr
  split
  · decide
  · simp only [List.all_reverse, List.all_eq_true]
    intro c hc
    rw [List.mem_map] at hc
    obtain ⟨d, hd, rfl⟩ := hc
    exact (digitChar_facts (Nat.digits_lt_base (by norm_num) hd)).1

theorem natStr_ne_nil (n : Nat) : natStr n ≠ [] := by
  unfold natStr
  split
  · simp
  · simp [Nat.digits_ne_nil_iff_ne_zero, *]

theorem foldr_digits (l : List Nat) (hl : ∀ d ∈ l, d < 10) :
    (l.map (fun d => Char.ofNat (48 + d))).foldr (fun c a => a * 10 + digitVal c) 0 =
      Nat.ofDigits 10 l := by
  induction l with
  | nil => simp [Nat.ofDigits_nil]
  | cons d L ih =>
    have hd : d < 10 := hl d (by simp)
    have hL : ∀ x ∈ L, x < 10 := fun x hx => hl x (by simp [hx])
    simp only [List.map_cons, List.foldr_cons, ih hL, Nat.ofDigits_cons,
      (digitChar_facts hd).2]
    omega

theorem parseNatDigits_natStr (n : Nat) : parseNatDigits (natStr n) = some n := by
  by_cases h0 : n = 0
  · subst h0; decide
  · have hall : ∀ d ∈ Nat.digits 10 n, d < 10 :=
      fun d hd => Nat.digits_lt_base (by norm_num) hd
    unfold parseNatDigits
    rw [if_pos ⟨natStr_ne_nil n, natStr_all_digit n⟩]
    congr 1
    have h1 : natStr n = ((Nat.digits 10 n).map (fun d => Char.ofNat (48 + d))).reverse := by
      unfold natStr; rw [if_neg h0]
    rw [h1, List.foldl_reverse]
    have h2 := foldr_digits (Nat.digits 10 n) hall
    calc ((Nat.digits 10 n).map (fun d => Char.ofNat (48 + d))).foldr
          (fun x y => y * 10 + digitVal x) 0 = Nat.ofDigits 10 (Nat.digits 10 n) := h2
      _ = n := Nat.ofDigits_digits 10 n

theorem natStr_head_digit (n : Nat) :
    ∃ c cs, natStr n = c :: cs ∧ isDigitCh c = true := by
  cases hc : natStr n with
  | nil => exact absurd hc (natStr_ne_nil n)
  | cons c cs =>
    refine ⟨c, cs, rfl, ?_⟩
    have := natStr_all_digit n
    rw [hc] at this
    simp only [List.all_cons, Bool.and_eq_true] at this
    exact this.1

theorem parseIntR_natStr (n : Nat) : parseIntR (natStr n) = some (n : Int) := by
  obtain ⟨c, cs, hcons, hdig⟩ := natStr_head_digit n
  obtain ⟨hm, hp⟩ := isDigitCh_ne hdig
  rw [hcons]
  simp only [parseIntR, if_neg hm, if_neg hp]
  rw [← hcons, parseNatDigits_natStr]
  simp

theorem parseIntR_intStr (a : Int) : parseIntR (intStr a) = some a := by
  cases a with
  | ofNat n => exact parseIntR_natStr n
  | negSucc m =>
    show parseIntR ('-' :: natStr (m + 1)) = some (Int.negSucc m)
    simp only [parseIntR, if_pos (rfl : ('-' : Char) = '-'), parseNatDigits_natStr]
    simp [Int.negSucc_eq]

theorem natStr_no_ws (n : Nat) : (natStr n).all (fun c => !isWs c) = true := by
  have h := natStr_all_digit n
  simp only [List.all_eq_true] at h ⊢
  intro c hc
  simp [isDigitCh_not_isWs (h c hc)]

theorem intStr_no_ws (a : Int) : (intStr a).all (fun c => !isWs c) = true := by
  cases a with
  | ofNat n => exact natStr_no_ws n
  | negSucc m =>
    show (('-' :: natStr (m + 1)).all fun c => !isWs c) = true
    simp only [List.all_cons, Bool.and_eq_true]
    exact ⟨by decide, natStr_no_ws (m + 1)⟩

/-! ### Tokenisation lemmas -/

theorem position_append_ws {tok : Str} (h : tok.all (fun c => !isWs c) = true)
    {c : Char} (hc : isWs c = true) (r : Str) :
    position isWs (tok ++ c :: r) = some tok.length := by
  induction tok with
  | nil => simp [position, hc]
  | cons d ds ih =>
    simp only [List.all_cons, Bool.and_eq_true, Bool.not_eq_true'] at h
    simp [position, h.1, ih h.2]

theorem position_no_ws {tok : Str} (h : tok.all (fun c => !isWs c) = true) :
    position isWs tok = none := by
  induction tok with
  | nil => rfl
  | cons d ds ih =>
    simp only [List.all_cons, Bool.and_eq_true, Bool.not_eq_true'] at h
    simp [position, h.1, ih h.2]

theorem trimLeft_space_cons (r : Str) : trimLeft (' ' :: r) = trimLeft r := by
  simp [trimLeft, List.dropWhile_cons, show isWs ' ' = true by decide]

theorem trimLeft_not_ws {c : Char} (h : isWs c = false) (r : Str) :
    trimLeft (c :: r) = c :: r := by
  simp [trimLeft, List.dropWhile_cons, h]

theorem parse_digit_token {tok rest : Str} {v : Value}
    (hnw : tok.all (fun c => !isWs c) = true) (hp : parseIntR tok = some v) :
    parse_digit (tok ++ ' ' :: rest) = (some v, trimLeft rest) := by
  have hpos := position_append_ws hnw (c := ' ') (by decide) rest
  simp only [parse_digit, hpos, List.take_left, List.drop_left, hp,
    trimLeft_space_cons]

theorem parse_digit_token_end {tok : Str} {v : Value}
    (hnw : tok.all (fun c => !isWs c) = true) (hp : parseIntR tok = some v) :
    parse_digit tok = (some v, []) := by
  simp only [parse_digit, position_no_ws hnw, hp]

/-! ### Clean characters and normalisation identity -/

theorem filter_id_of :
    ∀ {l : Str}, (∀ c ∈ l, (isWs c || isCtl c) = false ∨ c = ' ') →
      filter_non_words l = l := by
  intro l
  induction l with
  | nil => intro _; rfl
  | cons c cs ih =>
    intro h
    have hc := h c (by simp)
    unfold filter_non_words at ih ⊢
    simp only [List.map_cons]
    congr 1
    · rcases hc with hc | rfl
      · simp [hc]
      · simp
    · exact ih fun x hx => h x (by simp [hx])

theorem natStr_clean (n : Nat) : ∀ c ∈ natStr n, (isWs c || isCtl c) = false := by
  intro c hc
  have h := natStr_all_digit n
  rw [List.all_eq_true] at h
  have hd := h c hc
  simp [isDigitCh_not_isWs hd, isDigitCh_not_isCtl hd]

theorem intStr_clean (x : Int) : ∀ c ∈ intStr x, (isWs c || isCtl c) = false := by
  intro c hc
  cases x with
  | ofNat n => exact natStr_clean n c hc
  | negSucc m =>
    rw [show intStr (Int.negSucc m) = '-' :: natStr (m + 1) from rfl,
      List.mem_cons] at hc
    rcases hc with rfl | hc
    · decide
    · exact natStr_clean (m + 1) c hc

theorem intStr_head (x : Int) : ∃ c cs, intStr x = c :: cs ∧ isWs c = false := by
  cases x with
  | ofNat n =>
    obtain ⟨c, cs, h1, h2⟩ := natStr_head_digit n
    exact ⟨c, cs, h1, isDigitCh_not_isWs h2⟩
  | negSucc m => exact ⟨'-', natStr (m + 1), rfl, by decide⟩

theorem trimLeft_intStr_append (b : Int) (t : Str) :
    trimLeft (intStr b ++ t) = intStr b ++ t := by
  obtain ⟨c, cs, hcons, hws⟩ := intStr_head b
  rw [hcons, List.cons_append, trimLeft_not_ws hws]

theorem filter_two_ints {a b : Int} {op : Char} (hws : isWs op = false)
    (hctl : isCtl op = false) :
    filter_non_words (intStr a ++ ' ' :: (intStr b ++ [' ', op])) =
      intStr a ++ ' ' :: (intStr b ++ [' ', op]) := by
  apply filter_id_of
  intro c hc
  rw [List.mem_append, List.mem_cons] at hc
  rcases hc with h | rfl | h
  · exact Or.inl (intStr_clean a c h)
  · exact Or.inr rfl
  · rw [List.mem_append] at h
    rcases h with h | h
    · exact Or.inl (intStr_clean b c h)
    · rw [List.mem_cons, List.mem_singleton] at h
      rcases h with rfl | rfl
      · exact Or.inr rfl
      · exact Or.inl (by simp [hws, hctl])

theorem eval_word_nil_words {input : Str} (f : Forth) (h : f.words = []) :
    eval_word f input = (f, .ok input) := by
  unfold eval_word parse_word
  rw [h]
  cases position isWs input <;> simp [List.lookup]

/-- One unfolding of the outer driver loop. -/
theorem evalLoop_succ (n : Nat) (f : Forth) (input : Str) :
    evalLoop (n + 1) f input =
      if input = [] then some (f, none)
      else
        match evalPass f input with
        | (f', .error e) => some (f', some e)
        | (f', .ok input') => evalLoop n f' input' := rfl

theorem eval_digits_two_ints {a b : Int} {op : Char} (hws : isWs op = false)
    (hdop : parse_digit [op] = (none, [op])) (f : Forth) :
    eval_digits f (intStr a ++ ' ' :: (intStr b ++ [' ', op])) =
      (⟨b :: a :: f.stack, f.words⟩, [op]) := by
  have h1 : parse_digit (intStr a ++ ' ' :: (intStr b ++ [' ', op])) =
      (some a, intStr b ++ [' ', op]) := by
    rw [parse_digit_token (intStr_no_ws a) (parseIntR_intStr a),
      trimLeft_intStr_append]
  have h2 : parse_digit (intStr b ++ [' ', op]) = (some b, [op]) := by
    rw [@parse_digit_token (intStr b) [op] b (intStr_no_ws b) (parseIntR_intStr b),
      trimLeft_not_ws hws]
  rw [eval_digits_of_some h1, eval_digits_of_some h2, eval_digits_of_none hdop]

theorem eval_two_ints_ok {a b : Int} {op : Char} {s : List Value}
    (hws : isWs op = false) (hctl : isCtl op = false)
    (hdop : parse_digit [op] = (none, [op]))
    (hops : eval_operators ⟨[b, a], []⟩ [op] = (⟨s, []⟩, .ok [])) :
    eval 2 Forth.new (intStr a ++ ' ' :: (intStr b ++ [' ', op])) =
      some (⟨s, []⟩, none) := by
  have hdig : eval_digits Forth.new (intStr a ++ ' ' :: (intStr b ++ [' ', op])) =
      ((⟨[b, a], []⟩ : Forth), [op]) := by
    rw [eval_digits_two_ints hws hdop (a := a) (b := b) Forth.new]
    rfl
  have hwd : eval_word_declarations (⟨s, []⟩ : Forth) [] = (⟨s, []⟩, .ok []) :=
    eval_word_declarations_of_none
      (show parse_word_delcaration [] = .ok (none, []) from rfl) _
  have hw : eval_word (⟨s, []⟩ : Forth) [] = (⟨s, []⟩, .ok []) :=
    eval_word_nil_words _ rfl
  have hcm : eval_commands (⟨s, []⟩ : Forth) [] = (⟨s, []⟩, .ok []) :=
    eval_commands_of_none (show parse_command [] = .ok (none, []) from rfl) _
  have hpass : evalPass Forth.new (intStr a ++ ' ' :: (intStr b ++ [' ', op])) =
      (⟨s, []⟩, .ok []) := by
    simp only [evalPass, hdig, hops, hwd, hw, hcm]
  have hne : intStr a ++ ' ' :: (intStr b ++ [' ', op]) ≠ [] := by simp
  unfold eval
  rw [filter_two_ints hws hctl, show (2 : Nat) = 1 + 1 from rfl, evalLoop_succ,
    if_neg hne, hpass]
  rfl

theorem eval_two_ints_err {a b : Int} {op : Char} {f2 : Forth} {e : Error}
    (hws : isWs op = false) (hctl : isCtl op = false)
    (hdop : parse_digit [op] = (none, [op]))
    (hops : eval_operators ⟨[b, a], []⟩ [op] = (f2, .error e)) :
    eval 2 Forth.new (intStr a ++ ' ' :: (intStr b ++ [' ', op])) =
      some (f2, some e) := by
  have hdig : eval_digits Forth.new (intStr a ++ ' ' :: (intStr b ++ [' ', op])) =
      ((⟨[b, a], []⟩ : Forth), [op]) := by
    rw [eval_digits_two_ints hws hdop (a := a) (b := b) Forth.new]
    rfl
  have hpass : evalPass Forth.new (intStr a ++ ' ' :: (intStr b ++ [' ', op])) =
      (f2, .error e) := by
    simp only [evalPass, hdig, hops]
  have hne : intStr a ++ ' ' :: (intStr b ++ [' ', op]) ≠ [] := by simp
  unfold eval
  rw [filter_two_ints hws hctl, show (2 : Nat) = 1 + 1 from rfl, evalLoop_succ,
    if_neg hne, hpass]

/-- C1: for every pair of signed integers `a` and `b`, evaluating the string
`"a b +"` on a fresh interpreter leaves the stack `[a+b]`, and analogously
`"a b -"` leaves `[a-b]` and `"a b *"` leaves `[a*b]`; `"a b /"` leaves
`[a/b]` with division truncated toward zero (`Int.tdiv`) when `b` is nonzero,
and returns the error `DivisionByZero` when `b` is zero. -/
theorem c1_arithmetic_operators (a b : Int) :
    eval 2 Forth.new (intStr a ++ ' ' :: (intStr b ++ [' ', '+'])) =
        some (⟨[a + b], []⟩, none) ∧
    eval 2 Forth.new (intStr a ++ ' ' :: (intStr b ++ [' ', '-'])) =
        some (⟨[a - b], []⟩, none) ∧
    eval 2 Forth.new (intStr a ++ ' ' :: (intStr b ++ [' ', '*'])) =
        some (⟨[a * b], []⟩, none) ∧
    (b ≠ 0 → eval 2 Forth.new (intStr a ++ ' ' :: (intStr b ++ [' ', '/'])) =
        some (⟨[Int.tdiv a b], []⟩, none)) ∧
    (b = 0 → eval 2 Forth.new (intStr a ++ ' ' :: (intStr b ++ [' ', '/'])) =
        some (⟨[], []⟩, some .DivisionByZero)) := by
  refine ⟨?_, ?_, ?_, fun hb => ?_, fun hb => ?_⟩
  · refine eval_two_ints_ok (by decide) (by decide) (by decide) ?_
    rw [eval_operators_plus (show parse_operator ['+'] = (some Operator.Plus, []) from by decide) b a [] []]
    exact eval_operators_of_none (show parse_operator [] = (none, []) from rfl) _
  · refine eval_two_ints_ok (by decide) (by decide) (by decide) ?_
    rw [eval_operators_minus (show parse_operator ['-'] = (some Operator.Minus, []) from by decide) b a [] []]
    exact eval_operators_of_none (show parse_operator [] = (none, []) from rfl) _
  · refine eval_two_ints_ok (by decide) (by decide) (by decide) ?_
    rw [eval_operators_mult (show parse_operator ['*'] = (some Operator.Multiply, []) from by decide) b a [] []]
    exact eval_operators_of_none (show parse_operator [] = (none, []) from rfl) _
  · refine eval_two_ints_ok (by decide) (by decide) (by decide) ?_
    rw [eval_operators_div (show parse_operator ['/'] = (some Operator.Divide, []) from by decide) hb a [] []]
    exact eval_operators_of_none (show parse_operator [] = (none, []) from rfl) _
  · subst hb
    refine eval_two_ints_err (by decide) (by decide) (by decide) ?_
    exact eval_operators_divzero (show parse_operator ['/'] = (some Operator.Divide, []) from by decide) a [] []

/-- Witness for C1 at concrete inputs, hypotheses discharged. -/
theorem c1_arithmetic_operators_witness :
    eval 2 Forth.new (intStr 7 ++ ' ' :: (intStr (-3) ++ [' ', '/'])) =
        some (⟨[Int.tdiv 7 (-3)], []⟩, none) ∧
    eval 2 Forth.new (intStr 5 ++ ' ' :: (intStr 0 ++ [' ', '/'])) =
        some (⟨[], []⟩, some .DivisionByZero) :=
  ⟨(c1_arithmetic_operators 7 (-3)).2.2.2.1 (by decide),
   (c1_arithmetic_operators 5 0).2.2.2.2 rfl⟩

/-! ### A diverging evaluation: `": a 1 a ; a"` -/

/-- The dictionary after evaluating the declaration `": a 1 a ;"`. -/
def loopDict : List (Str × Str) := [(['a'], ['1', ' ', 'a'])]

theorem evalPass_loop (s : List Value) :
    evalPass ⟨s, loopDict⟩ ['1', ' ', 'a'] = (⟨1 :: s, loopDict⟩, .ok ['1', ' ', 'a']) := by
  have h1 : parse_digit ['1', ' ', 'a'] = (some 1, ['a']) := by decide
  have h2 : parse_digit ['a'] = (none, ['a']) := by decide
  have hdig : eval_digits ⟨s, loopDict⟩ ['1', ' ', 'a'] = (⟨1 :: s, loopDict⟩, ['a']) := by
    rw [eval_digits_of_some h1, eval_digits_of_none h2]
  have hops : eval_operators (⟨1 :: s, loopDict⟩ : Forth) ['a'] =
      (⟨1 :: s, loopDict⟩, .ok ['a']) :=
    eval_operators_of_none (show parse_operator ['a'] = (none, ['a']) from by decide) _
  have hdecl : eval_word_declarations (⟨1 :: s, loopDict⟩ : Forth) ['a'] =
      (⟨1 :: s, loopDict⟩, .ok ['a']) :=
    eval_word_declarations_of_none
      (show parse_word_delcaration ['a'] = .ok (none, []) from rfl) _
  have hword : eval_word (⟨1 :: s, loopDict⟩ : Forth) ['a'] =
      (⟨1 :: s, loopDict⟩, .ok ['1', ' ', 'a']) := by
    unfold eval_word parse_word
    simp [show position isWs ['a'] = none from by decide, loopDict, List.lookup,
      show (lowerChar 'a' == 'a') = true from rfl]
  have hcmd : eval_commands (⟨1 :: s, loopDict⟩ : Forth) ['1', ' ', 'a'] =
      (⟨1 :: s, loopDict⟩, .ok ['1', ' ', 'a']) :=
    eval_commands_of_none
      (show parse_command ['1', ' ', 'a'] = .ok (none, []) from rfl) _
  simp only [evalPass, hdig, hops, hdecl, hword, hcmd]

theorem evalLoop_loop (n : Nat) : ∀ s : List Value,
    evalLoop n ⟨s, loopDict⟩ ['1', ' ', 'a'] = none := by
  induction n with
  | zero => intro s; rfl
  | succ n ih =>
    intro s
    rw [evalLoop_succ, if_neg (by decide), evalPass_loop s]
    exact ih (1 :: s)

/-- C2 counterexample: evaluating `": a 1 a ; a"` on a fresh interpreter never
terminates — the word `a` expands to `"1 a"`, whose numeral is consumed and
whose trailing `a` is re-expanded on every pass of the driver loop. -/
theorem c2_counterexample : ¬ Terminates Forth.new (": a 1 a ; a").data := by
  have hpass0 : evalPass Forth.new (filter_non_words (": a 1 a ; a").data) =
      (⟨[], loopDict⟩, .ok ['1', ' ', 'a']) := rfl
  rintro ⟨n, hn⟩
  have heval : eval n Forth.new (": a 1 a ; a").data = none := by
    cases n with
    | zero => rfl
    | succ n =>
      unfold eval
      rw [evalLoop_succ, if_neg (by decide), hpass0]
      exact evalLoop_loop n []
  rw [heval] at hn
  simp at hn

/-- C9 counterexample: on input `"x "` the candidate token `"x"` fails to
parse and a whitespace delimiter was located, yet the remainder is `input`
trimmed on BOTH ends (`str::trim`), not merely trim-left as claimed: the
trailing space is dropped. -/
theorem c9_counterexample : parse_digit ['x', ' '] ≠ (none, trimLeft ['x', ' ']) := by
  decide

/-- C9 amended: when the candidate token fails to parse as a number, the
remainder is the input trimmed of BOTH leading and trailing whitespace if a
whitespace delimiter was located, and the unchanged input if no delimiter
exists. -/
theorem c9_failed_numeric_remainder (input : Str) :
    (∀ p, position isWs input = some p → parseIntR (input.take p) = none →
        parse_digit input = (none, trimBoth input)) ∧
    (position isWs input = none → parseIntR input = none →
        parse_digit input = (none, input)) := by
  constructor
  · intro p hp hn
    simp only [parse_digit, hp, hn]
  · intro hp hn
    simp only [parse_digit, hp, hn]

/-- Witness for C9 at concrete inputs. -/
theorem c9_failed_numeric_remainder_witness :
    parse_digit ['x', ' '] = (none, trimBoth ['x', ' ']) ∧
    parse_digit ['x'] = (none, ['x']) :=
  ⟨(c9_failed_numeric_remainder ['x', ' ']).1 1 (by decide) (by decide),
   (c9_failed_numeric_remainder ['x']).2 (by decide) (by decide)⟩

/-- C3 counterexample: evaluating `"5 0 /"` fails with DivisionByZero, but
the stack at the error is empty — both operands were already popped — not
`[5, 0]` as the claim states. -/
theorem c3_counterexample :
    eval 2 Forth.new ('5' :: ' ' :: '0' :: ' ' :: ['/']) =
      some (⟨[], []⟩, some .DivisionByZero) ∧
    (⟨[], []⟩ : Forth).stackSnapshot ≠ [5, 0] := by
  decide

/-- C3 amended: a division whose right operand is zero fails with
DivisionByZero after both operands have been popped and before any result is
pushed: the stack at the error is the stack below the two operands. -/
theorem c3_divzero_state :
    (∀ (input tail : Str) (v1 : Value) (st : List Value) (w : List (Str × Str)),
        parse_operator input = (some .Divide, tail) →
        eval_operators ⟨0 :: v1 :: st, w⟩ input = (⟨st, w⟩, .error .DivisionByZero)) ∧
    eval 2 Forth.new ('5' :: ' ' :: '0' :: ' ' :: ['/']) =
      some (⟨[], []⟩, some .DivisionByZero) :=
  ⟨fun _ _ v1 st w h => eval_operators_divzero h v1 st w, by decide⟩

/-- Witness for C3 at a concrete divide. -/
theorem c3_divzero_state_witness :
    eval_operators ⟨[0, 7, 9], []⟩ ['/'] = (⟨[9], []⟩, .error .DivisionByZero) :=
  c3_divzero_state.1 ['/'] [] 7 [9] [] (by decide)

/-- C5: the built-in commands act on the stack exactly as specified: drop
pops one value (StackUnderflow when empty); dup copies the top (StackUnderflow
when empty); swap reverses the top two (StackUnderflow below two); over pops
value2 then value1 and pushes value1, value2, value1 (StackUnderflow below
two); `"1 2 over"` yields stack `[1, 2, 1]` and `"1 2 swap"` yields `[2, 1]`
(oldest first). -/
theorem c5_builtin_commands :
    (∀ (input tail : Str) (w : List (Str × Str)) (v : Value) (st : List Value),
        parse_command input = .ok (some .Dropp, tail) →
        eval_commands ⟨v :: st, w⟩ input = eval_commands ⟨st, w⟩ tail) ∧
    (∀ (input tail : Str) (w : List (Str × Str)),
        parse_command input = .ok (some .Dropp, tail) →
        eval_commands ⟨[], w⟩ input = (⟨[], w⟩, .error .StackUnderflow)) ∧
    (∀ (input tail : Str) (w : List (Str × Str)) (v : Value) (st : List Value),
        parse_command input = .ok (some .Dup, tail) →
        eval_commands ⟨v :: st, w⟩ input = eval_commands ⟨v :: v :: st, w⟩ tail) ∧
    (∀ (input tail : Str) (w : List (Str × Str)),
        parse_command input = .ok (some .Dup, tail) →
        eval_commands ⟨[], w⟩ input = (⟨[], w⟩, .error .StackUnderflow)) ∧
    (∀ (input tail : Str) (w : List (Str × Str)) (v2 v1 : Value) (st : List Value),
        parse_command input = .ok (some .Swap, tail) →
        eval_commands ⟨v2 :: v1 :: st, w⟩ input = eval_commands ⟨v1 :: v2 :: st, w⟩ tail) ∧
    (∀ (input tail : Str) (w : List (Str × Str)),
        parse_command input = .ok (some .Swap, tail) →
        eval_commands ⟨[], w⟩ input = (⟨[], w⟩, .error .StackUnderflow)) ∧
    (∀ (input tail : Str) (w : List (Str × Str)) (v : Value),
        parse_command input = .ok (some .Swap, tail) →
        eval_commands ⟨[v], w⟩ input = (⟨[], w⟩, .error .StackUnderflow)) ∧
    (∀ (input tail : Str) (w : List (Str × Str)) (v2 v1 : Value) (st : List Value),
        parse_command input = .ok (some .Over, tail) →
        eval_commands ⟨v2 :: v1 :: st, w⟩ input =
          eval_commands ⟨v1 :: v2 :: v1 :: st, w⟩ tail) ∧
    (∀ (input tail : Str) (w : List (Str × Str)),
        parse_command input = .ok (some .Over, tail) →
        eval_commands ⟨[], w⟩ input = (⟨[], w⟩, .error .StackUnderflow)) ∧
    (∀ (input tail : Str) (w : List (Str × Str)) (v : Value),
        parse_command input = .ok (some .Over, tail) →
        eval_commands ⟨[v], w⟩ input = (⟨[], w⟩, .error .StackUnderflow)) ∧
    eval 2 Forth.new "1 2 over".data = some (⟨[1, 2, 1], []⟩, none) ∧
    eval 2 Forth.new "1 2 swap".data = some (⟨[1, 2], []⟩, none) := by
  refine ⟨fun _ t w v st h => eval_commands_drop h v st w,
    fun _ t w h => eval_commands_drop_underflow h w,
    fun _ t w v st h => eval_commands_dup h v st w,
    fun _ t w h => eval_commands_dup_underflow h w,
    fun _ t w v2 v1 st h => eval_commands_swap h v2 v1 st w,
    fun _ t w h => eval_commands_swap_underflow0 h w,
    fun _ t w v h => eval_commands_swap_underflow1 h v w,
    fun _ t w v2 v1 st h => eval_commands_over h v2 v1 st w,
    fun _ t w h => eval_commands_over_underflow0 h w,
    fun _ t w v h => eval_commands_over_underflow1 h v w,
    by decide, by decide⟩

/-- Witness for C5 at a concrete drop. -/
theorem c5_builtin_commands_witness :
    eval_commands ⟨[7], []⟩ "drop".data = eval_commands ⟨[], []⟩ [] :=
  c5_builtin_commands.1 "drop".data [] [] 7 []
    (show parse_command "drop".data = .ok (some .Dropp, []) from rfl)

/-- C4: word expansion rewrites the whole remaining input to the stored
dictionary value concatenated with the unmodified tail after the first token
(the lookup key is the lowercased token); with no dictionary hit the input is
returned unchanged; the substitution happens at most once per driver pass
(the rewritten text is returned as-is, not re-expanded by this stage); and
`": dup-twice dup dup ; 5 dup-twice"` yields stack `[5, 5, 5]`. -/
theorem c4_word_expansion :
    (∀ (f : Forth) (input : Str) (p : Nat) (v : Str),
        position isWs input = some p →
        f.words.lookup ((input.take p).map lowerChar) = some v →
        eval_word f input = (f, .ok (v ++ input.drop p))) ∧
    (∀ (f : Forth) (input : Str) (v : Str),
        position isWs input = none →
        f.words.lookup (input.map lowerChar) = some v →
        eval_word f input = (f, .ok v)) ∧
    (∀ (f : Forth) (input : Str) (p : Nat),
        position isWs input = some p →
        f.words.lookup ((input.take p).map lowerChar) = none →
        eval_word f input = (f, .ok input)) ∧
    (∀ (f : Forth) (input : Str),
        position isWs input = none →
        f.words.lookup (input.map lowerChar) = none →
        eval_word f input = (f, .ok input)) ∧
    eval 5 Forth.new ": dup-twice dup dup ; 5 dup-twice".data =
      some (⟨[5, 5, 5], [("dup-twice".data, "dup dup".data)]⟩, none) := by
  refine ⟨?_, ?_, ?_, ?_, by decide⟩
  · intro f input p v hp hv
    simp only [eval_word, parse_word, hp, hv, List.append_nil]
  · intro f input v hp hv
    simp only [eval_word, parse_word, hp, hv, List.append_nil]
  · intro f input p hp hv
    simp only [eval_word, parse_word, hp, hv]
  · intro f input hp hv
    simp only [eval_word, parse_word, hp, hv]

/-- Witness for C4: expanding `dup-twice` (declared as `dup dup`) in front of
a nonempty tail, and a case-insensitive miss. -/
theorem c4_word_expansion_witness :
    eval_word ⟨[], [("dup-twice".data, "dup dup".data)]⟩ "DUP-Twice rest".data =
      (⟨[], [("dup-twice".data, "dup dup".data)]⟩, .ok ("dup dup".data ++ " rest".data)) :=
  c4_word_expansion.1 ⟨[], [("dup-twice".data, "dup dup".data)]⟩ "DUP-Twice rest".data
    9 "dup dup".data (by decide) (by decide)

/-- C7: an error is returned with the interpreter exactly as it stood at the
failure point: an erroring stage's state passes through the rest of the pass
and the driver loop unchanged (no rollback), and mutations performed before
the error — the pushes of `1` and `2` and the dictionary entry for `foo` in
`"1 2 : foo 1 ; bogus"` — are retained at the UnknownWord error. -/
theorem c7_no_rollback :
    (∀ (f : Forth) (input : Str) (f2 : Forth) (e : Error),
        eval_operators (eval_digits f input).1 (eval_digits f input).2 =
          (f2, .error e) →
        evalPass f input = (f2, .error e)) ∧
    (∀ (n : Nat) (f : Forth) (input : Str) (f1 : Forth) (e : Error),
        input ≠ [] → evalPass f input = (f1, .error e) →
        evalLoop (n + 1) f input = some (f1, some e)) ∧
    eval 2 Forth.new "1 2 : foo 1 ; bogus".data =
      some (⟨[2, 1], [(['f', 'o', 'o'], ['1'])]⟩, some .UnknownWord) := by
  refine ⟨?_, ?_, by decide⟩
  · intro f input f2 e h
    simp only [evalPass, h]
  · intro n f input f1 e hne h
    rw [evalLoop_succ, if_neg hne, h]

/-- Witness for C7: a StackUnderflow in the operator stage propagates its
state. -/
theorem c7_no_rollback_witness :
    evalPass ⟨[], []⟩ ['+'] = (⟨[], []⟩, .error .StackUnderflow) ∧
    evalLoop 1 ⟨[], []⟩ ['+'] = some (⟨[], []⟩, some .StackUnderflow) := by
  have h1 : evalPass ⟨[], []⟩ ['+'] = (⟨[], []⟩, .error .StackUnderflow) :=
    c7_no_rollback.1 ⟨[], []⟩ ['+'] ⟨[], []⟩ .StackUnderflow rfl
  exact ⟨h1, c7_no_rollback.2.1 0 ⟨[], []⟩ ['+'] ⟨[], []⟩ .StackUnderflow
    (by decide) h1⟩

/-- The lowercased first whitespace-delimited token, as the command
recognizer extracts it. -/
def firstTokenLower (input : Str) : Str :=
  match position isWs input with
  | some p => (input.take p).map lowerChar
  | none => input.map lowerChar

theorem command_chain_numeral {tok tail : Str}
    (hu : (parseU32R tok).isSome = true) :
    (if tok = ['d', 'r', 'o', 'p'] then
        (Except.ok (some Command.Dropp, tail) : Except Error (Option Command × Str))
     else if tok = ['d', 'u', 'p'] then .ok (some .Dup, tail)
     else if tok = ['s', 'w', 'a', 'p'] then .ok (some .Swap, tail)
     else if tok = ['o', 'v', 'e', 'r'] then .ok (some .Over, tail)
     else if (parseU32R tok).isSome then .ok (none, [])
     else .error .UnknownWord) = .ok (none, []) := by
  have h1 : tok ≠ ['d', 'r', 'o', 'p'] := by rintro rfl; exact absurd hu (by decide)
  have h2 : tok ≠ ['d', 'u', 'p'] := by rintro rfl; exact absurd hu (by decide)
  have h3 : tok ≠ ['s', 'w', 'a', 'p'] := by rintro rfl; exact absurd hu (by decide)
  have h4 : tok ≠ ['o', 'v', 'e', 'r'] := by rintro rfl; exact absurd hu (by decide)
  rw [if_neg h1, if_neg h2, if_neg h3, if_neg h4, if_pos hu]

theorem command_chain_unknown {tok tail : Str}
    (h1 : tok ≠ ['d', 'r', 'o', 'p']) (h2 : tok ≠ ['d', 'u', 'p'])
    (h3 : tok ≠ ['s', 'w', 'a', 'p']) (h4 : tok ≠ ['o', 'v', 'e', 'r'])
    (hu : (parseU32R tok).isSome = false) :
    (if tok = ['d', 'r', 'o', 'p'] then
        (Except.ok (some Command.Dropp, tail) : Except Error (Option Command × Str))
     else if tok = ['d', 'u', 'p'] then .ok (some .Dup, tail)
     else if tok = ['s', 'w', 'a', 'p'] then .ok (some .Swap, tail)
     else if tok = ['o', 'v', 'e', 'r'] then .ok (some .Over, tail)
     else if (parseU32R tok).isSome then .ok (none, [])
     else .error .UnknownWord) = .error .UnknownWord := by
  rw [if_neg h1, if_neg h2, if_neg h3, if_neg h4, if_neg (by simp [hu])]

/-- C8: when the command recognizer's lowercased token parses as an unsigned
integer it reports no match with an EMPTY remainder (for any tail), so the
command stage stops there — the pass neither consumes the numeral nor fails
with UnknownWord, and `eval_commands` leaves its input unchanged; any other
token not among drop/dup/swap/over fails with UnknownWord. -/
theorem c8_bare_numeral_command_stage :
    (∀ input : Str, input ≠ [] →
        (parseU32R (firstTokenLower input)).isSome = true →
        parse_command input = .ok (none, [])) ∧
    (∀ (f : Forth) (input r : Str), parse_command input = .ok (none, r) →
        eval_commands f input = (f, .ok input)) ∧
    (∀ input : Str, input ≠ [] →
        firstTokenLower input ≠ ['d', 'r', 'o', 'p'] →
        firstTokenLower input ≠ ['d', 'u', 'p'] →
        firstTokenLower input ≠ ['s', 'w', 'a', 'p'] →
        firstTokenLower input ≠ ['o', 'v', 'e', 'r'] →
        (parseU32R (firstTokenLower input)).isSome = false →
        parse_command input = .error .UnknownWord) := by
  refine ⟨?_, fun f input r h => eval_commands_of_none h f, ?_⟩
  · intro input hne hu
    cases input with
    | nil => exact absurd rfl hne
    | cons c rest =>
      cases hpos : position isWs (c :: rest) with
      | some p =>
        simp only [firstTokenLower, hpos] at hu
        simp only [parse_command, hpos]
        exact command_chain_numeral hu
      | none =>
        simp only [firstTokenLower, hpos] at hu
        simp only [parse_command, hpos]
        exact command_chain_numeral hu
  · intro input hne h1 h2 h3 h4 hu
    cases input with
    | nil => exact absurd rfl hne
    | cons c rest =>
      cases hpos : position isWs (c :: rest) with
      | some p =>
        simp only [firstTokenLower, hpos] at h1 h2 h3 h4 hu
        simp only [parse_command, hpos]
        exact command_chain_unknown h1 h2 h3 h4 hu
      | none =>
        simp only [firstTokenLower, hpos] at h1 h2 h3 h4 hu
        simp only [parse_command, hpos]
        exact command_chain_unknown h1 h2 h3 h4 hu

/-- Witness for C8: `"5 junk"` reaches the command stage as a bare numeral
and yields no-match with empty remainder; `"foo"` fails with UnknownWord. -/
theorem c8_bare_numeral_command_stage_witness :
    parse_command "5 junk".data = .ok (none, []) ∧
    eval_commands ⟨[], []⟩ "5 junk".data = (⟨[], []⟩, .ok "5 junk".data) ∧
    parse_command "foo".data = .error .UnknownWord := by
  have h5 : parse_command "5 junk".data = .ok (none, []) :=
    c8_bare_numeral_command_stage.1 "5 junk".data (by decide) (by decide)
  refine ⟨h5, c8_bare_numeral_command_stage.2.1 ⟨[], []⟩ "5 junk".data [] h5,
    c8_bare_numeral_command_stage.2.2 "foo".data (by decide) (by decide)
      (by decide) (by decide) (by decide) (by decide)⟩

/-- C6 counterexample: declaring `": foo  bar ;"` (two spaces before the
body) installs the value `" bar"` with its leading space intact — the value
is NOT trimmed of surrounding whitespace as the claim states. -/
theorem c6_counterexample :
    parse_word_delcaration (": foo  bar ;").data =
      .ok (some (.Word ['f', 'o', 'o'] [' ', 'b', 'a', 'r']), []) ∧
    trimBoth [' ', 'b', 'a', 'r'] ≠ [' ', 'b', 'a', 'r'] := by
  exact ⟨rfl, by decide⟩

/-- C6 amended: on input beginning with `':'`, declaration recognition fails
with InvalidWord exactly when the input has no `';'`, or the trimmed body
between `':'` and `';'` is empty, or the value after the key is empty, or the
key's first character is a digit; on success the key is lowercased and the
stored value is the body after the first space — with exactly one separator
space removed and NOT further trimmed — the mapping is installed in the
dictionary, and the remainder is everything after the first `';'`, trimmed. -/
theorem c6_declaration_rule (rest : Str) :
    (parse_word_delcaration (':' :: rest) = .error .InvalidWord ↔
      (¬((':' :: rest).any fun c => c = ';') = true ∨
        trimBoth (rest.takeWhile (fun c => c != ';')) = [] ∨
        ((trimBoth (rest.takeWhile (fun c => c != ';'))).dropWhile
          (fun c => c != ' ')).drop 1 = [] ∨
        (∀ k0, ((trimBoth (rest.takeWhile (fun c => c != ';'))).takeWhile
            (fun c => c != ' ')).head? = some k0 → isNumericCh k0 = true))) ∧
    (∀ cmd tail, parse_word_delcaration (':' :: rest) = .ok (some cmd, tail) →
        cmd = .Word (((trimBoth (rest.takeWhile (fun c => c != ';'))).takeWhile
                (fun c => c != ' ')).map lowerChar)
              (((trimBoth (rest.takeWhile (fun c => c != ';'))).dropWhile
                (fun c => c != ' ')).drop 1) ∧
        tail = trimBoth (((':' :: rest).dropWhile (fun c => c != ';')).drop 1)) ∧
    (∀ (f : Forth) (k v tail : Str),
        parse_word_delcaration (':' :: rest) = .ok (some (.Word k v), tail) →
        eval_word_declarations f (':' :: rest) =
          eval_word_declarations ⟨f.stack, (k, v) :: f.words⟩ tail) := by
  refine ⟨?_, ?_, fun f k v tail h => eval_word_declarations_of_word h f⟩
  · simp only [parse_word_delcaration, if_neg (show ¬(':' ≠ ':') by simp),
      List.drop_succ_cons, List.drop_zero]
    by_cases hbad : ¬((':' :: rest).any fun c => c = ';') = true ∨
        trimBoth (rest.takeWhile (fun c => c != ';')) = [] ∨
        ((trimBoth (rest.takeWhile (fun c => c != ';'))).dropWhile
          (fun c => c != ' ')).drop 1 = []
    · rw [if_pos hbad]
      exact iff_of_true rfl (by tauto)
    · rw [if_neg hbad]
      cases hk : ((trimBoth (rest.takeWhile (fun c => c != ';'))).takeWhile
          (fun c => c != ' ')).head? with
      | none =>
        exact iff_of_true rfl (Or.inr (Or.inr (Or.inr fun k0 h =>
          absurd h (by simp))))
      | some k0 =>
        dsimp only
        by_cases hnum : isNumericCh k0 = true
        · rw [if_pos hnum]
          refine iff_of_true rfl (Or.inr (Or.inr (Or.inr fun k0' h => ?_)))
          obtain rfl : k0 = k0' := by simpa using h
          exact hnum
        · rw [if_neg hnum]
          refine iff_of_false (by simp) ?_
          push_neg at hbad
          rintro (h | h | h | h)
          · exact h hbad.1
          · exact hbad.2.1 h
          · exact hbad.2.2 h
          · exact hnum (h k0 rfl)
  · intro cmd tail h
    simp only [parse_word_delcaration, if_neg (show ¬(':' ≠ ':') by simp),
      List.drop_succ_cons, List.drop_zero] at h
    by_cases hbad : ¬((':' :: rest).any fun c => c = ';') = true ∨
        trimBoth (rest.takeWhile (fun c => c != ';')) = [] ∨
        ((trimBoth (rest.takeWhile (fun c => c != ';'))).dropWhile
          (fun c => c != ' ')).drop 1 = []
    · rw [if_pos hbad] at h
      exact absurd h (by simp)
    · rw [if_neg hbad] at h
      cases hk : ((trimBoth (rest.takeWhile (fun c => c != ';'))).takeWhile
          (fun c => c != ' ')).head? with
      | none => rw [hk] at h; exact absurd h (by simp)
      | some k0 =>
        rw [hk] at h
        dsimp only at h
        by_cases hnum : isNumericCh k0 = true
        · rw [if_pos hnum] at h
          exact absurd h (by simp)
        · rw [if_neg hnum] at h
          simp only [Except.ok.injEq, Prod.mk.injEq, Option.some.injEq] at h
          exact ⟨h.1.symm, h.2.symm⟩

/-- Witness for C6: missing terminator, empty body, empty value and digit-led
key all fail with InvalidWord; `": foo bar ;"` succeeds with lowercased key
`foo`, value `bar` and empty remainder. -/
theorem c6_declaration_rule_witness :
    parse_word_delcaration (": foo 1 2").data = .error .InvalidWord ∧
    parse_word_delcaration (": ;").data = .error .InvalidWord ∧
    parse_word_delcaration (": 1foo 1 ;").data = .error .InvalidWord ∧
    parse_word_delcaration (": FOO bar ;").data =
      .ok (some (.Word ['f', 'o', 'o'] ['b', 'a', 'r']), []) := by
  refine ⟨(c6_declaration_rule (" foo 1 2").data).1.2 ?_, 
    (c6_declaration_rule (" ;").data).1.2 ?_,
    (c6_declaration_rule (" 1foo 1 ;").data).1.2 ?_, ?_⟩
  · exact Or.inl (by decide)
  · exact Or.inr (Or.inl (by decide))
  · refine Or.inr (Or.inr (Or.inr ?_))
    intro k0 h
    have : k0 = '1' := by
      have hc : ((trimBoth ((" 1foo 1 ;").data.takeWhile (fun c => c != ';'))).takeWhile
          (fun c => c != ' ')).head? = some '1' := by decide
      rw [hc] at h
      simpa using h.symm
    rw [this]
    decide
  · have h := (c6_declaration_rule (" FOO bar ;").data).2.1
    have hp : parse_word_delcaration (':' :: (" FOO bar ;").data) =
        .ok (some (.Word ['f', 'o', 'o'] ['b', 'a', 'r']), []) := rfl
    exact hp

/-! ### Suffix and preservation facts used for the termination theorem -/

theorem parse_digit_some_suffix {input : Str} {v : Value} {tail : Str}
    (h : parse_digit input = (some v, tail)) : tail <:+ input := by
  cases hpos : position isWs input with
  | none =>
    simp only [parse_digit, hpos] at h
    cases hp : parseIntR input with
    | none => rw [hp] at h; simp at h
    | some w =>
      rw [hp] at h
      obtain ⟨-, rfl⟩ : some w = some v ∧ ([] : Str) = tail := by simpa using h
      exact List.nil_suffix
  | some p =>
    simp only [parse_digit, hpos] at h
    cases hp : parseIntR (input.take p) with
    | none => rw [hp] at h; simp at h
    | some w =>
      rw [hp] at h
      obtain ⟨-, rfl⟩ : some w = some v ∧ trimLeft (input.drop p) = tail := by
        simpa using h
      exact (List.dropWhile_suffix isWs).trans (List.drop_suffix p input)

theorem parse_operator_some_suffix {input : Str} {op : Operator} {tail : Str}
    (h : parse_operator input = (some op, tail)) : tail <:+ input := by
  cases input with
  | nil => simp [parse_operator] at h
  | cons c rest =>
    have hs : trimLeft rest <:+ c :: rest :=
      (List.dropWhile_suffix isWs).trans (List.suffix_cons c rest)
    simp only [parse_operator] at h
    split_ifs at h <;> simp only [Prod.mk.injEq] at h <;>
      first
      | exact Option.noConfusion h.1
      | (obtain ⟨-, rfl⟩ := h; exact hs)

theorem parse_command_some_suffix {input : Str} {cmd : Command} {tail : Str}
    (h : parse_command input = .ok (some cmd, tail)) : tail <:+ input := by
  cases input with
  | nil => simp [parse_command] at h
  | cons c rest =>
    cases hpos : position isWs (c :: rest) with
    | none =>
      simp only [parse_command, hpos] at h
      split_ifs at h <;> simp only [Except.ok.injEq, Prod.mk.injEq] at h <;>
        obtain ⟨-, rfl⟩ := h <;> exact List.nil_suffix
    | some p =>
      have hs : trimLeft ((c :: rest).drop p) <:+ c :: rest :=
        (List.dropWhile_suffix isWs).trans (List.drop_suffix p _)
      simp only [parse_command, hpos] at h
      split_ifs at h <;> simp only [Except.ok.injEq, Prod.mk.injEq] at h <;>
        first
        | (obtain ⟨-, rfl⟩ := h; exact hs)
        | simp_all

theorem parse_command_no_word {input : Str} {k v tail : Str}
    (h : parse_command input = .ok (some (.Word k v), tail)) : False := by
  cases input with
  | nil => simp [parse_command] at h
  | cons c rest =>
    cases hpos : position isWs (c :: rest) <;>
      simp only [parse_command, hpos] at h <;>
      split_ifs at h <;> simp_all

theorem evalDigitsGo_suffix : ∀ (n : Nat) (f : Forth) (input : Str),
    (evalDigitsGo n f input).2 <:+ input := by
  intro n
  induction n with
  | zero => intro f input; exact List.suffix_refl _
  | succ n ih =>
    intro f input
    simp only [evalDigitsGo]
    cases hp : parse_digit input with
    | mk o tail =>
      cases o with
      | none => exact List.suffix_refl _
      | some v => exact (ih _ tail).trans (parse_digit_some_suffix hp)

theorem evalDigitsGo_words : ∀ (n : Nat) (f : Forth) (input : Str),
    (evalDigitsGo n f input).1.words = f.words := by
  intro n
  induction n with
  | zero => intro f input; rfl
  | succ n ih =>
    intro f input
    simp only [evalDigitsGo]
    cases hp : parse_digit input with
    | mk o tail =>
      cases o with
      | none => rfl
      | some v => exact ih _ tail

theorem evalOperatorsGo_suffix : ∀ (n : Nat) (f : Forth) (input i' : Str),
    (evalOperatorsGo n f input).2 = .ok i' → i' <:+ input := by
  intro n
  induction n with
  | zero =>
    intro f input i' h
    obtain rfl : input = i' := by simpa [evalOperatorsGo] using h
    exact List.suffix_refl _
  | succ n ih =>
    intro f input i' h
    simp only [evalOperatorsGo] at h
    cases hp : parse_operator input with
    | mk o tail =>
      rw [hp] at h
      cases o with
      | none =>
        dsimp only at h
        obtain rfl : input = i' := by simpa using h
        exact List.suffix_refl _
      | some op =>
        dsimp only at h
        cases hs : f.stack with
        | nil => rw [hs] at h; simp at h
        | cons v2 rest2 =>
          rw [hs] at h
          cases rest2 with
          | nil => simp at h
          | cons v1 st =>
            dsimp only at h
            cases op with
            | Plus => exact (ih _ _ _ h).trans (parse_operator_some_suffix hp)
            | Minus => exact (ih _ _ _ h).trans (parse_operator_some_suffix hp)
            | Multiply => exact (ih _ _ _ h).trans (parse_operator_some_suffix hp)
            | Divide =>
              by_cases hz : v2 = 0
              · rw [if_pos hz] at h; simp at h
              · rw [if_neg hz] at h
                exact (ih _ _ _ h).trans (parse_operator_some_suffix hp)

theorem evalOperatorsGo_words : ∀ (n : Nat) (f : Forth) (input : Str),
    (evalOperatorsGo n f input).1.words = f.words := by
  intro n
  induction n with
  | zero => intro f input; rfl
  | succ n ih =>
    intro f input
    simp only [evalOperatorsGo]
    cases hp : parse_operator input with
    | mk o tail =>
      cases o with
      | none => rfl
      | some op =>
        cases hs : f.stack with
        | nil => rfl
        | cons v2 rest2 =>
          cases rest2 with
          | nil => rfl
          | cons v1 st =>
            cases op with
            | Plus => exact ih _ tail
            | Minus => exact ih _ tail
            | Multiply => exact ih _ tail
            | Divide =>
              dsimp only
              by_cases hz : v2 = 0
              · rw [if_pos hz]
              · rw [if_neg hz]; exact ih _ tail

theorem evalCommandsGo_suffix : ∀ (n : Nat) (f : Forth) (input i' : Str),
    (evalCommandsGo n f input).2 = .ok i' → i' <:+ input := by
  intro n
  induction n with
  | zero =>
    intro f input i' h
    obtain rfl : input = i' := by simpa [evalCommandsGo] using h
    exact List.suffix_refl _
  | succ n ih =>
    intro f input i' h
    simp only [evalCommandsGo] at h
    cases hp : parse_command input with
    | error e => rw [hp] at h; simp at h
    | ok res =>
      rw [hp] at h
      obtain ⟨o, tail⟩ := res
      cases o with
      | none =>
        dsimp only at h
        obtain rfl : input = i' := by simpa using h
        exact List.suffix_refl _
      | some cmd =>
        dsimp only at h
        cases cmd with
        | Word k v => exact (ih _ _ _ h).trans (parse_command_some_suffix hp)
        | Dropp =>
          cases hs : f.stack with
          | nil => rw [hs] at h; simp at h
          | cons v st =>
            rw [hs] at h
            exact (ih _ _ _ h).trans (parse_command_some_suffix hp)
        | Dup =>
          cases hs : f.stack with
          | nil => rw [hs] at h; simp at h
          | cons v st =>
            rw [hs] at h
            exact (ih _ _ _ h).trans (parse_command_some_suffix hp)
        | Swap =>
          cases hs : f.stack with
          | nil => rw [hs] at h; simp at h
          | cons v2 rest2 =>
            rw [hs] at h
            cases rest2 with
            | nil => simp at h
            | cons v1 st => exact (ih _ _ _ h).trans (parse_command_some_suffix hp)
        | Over =>
          cases hs : f.stack with
          | nil => rw [hs] at h; simp at h
          | cons v2 rest2 =>
            rw [hs] at h
            cases rest2 with
            | nil => simp at h
            | cons v1 st => exact (ih _ _ _ h).trans (parse_command_some_suffix hp)

theorem evalCommandsGo_words : ∀ (n : Nat) (f : Forth) (input : Str),
    (evalCommandsGo n f input).1.words = f.words := by
  intro n
  induction n with
  | zero => intro f input; rfl
  | succ n ih =>
    intro f input
    simp only [evalCommandsGo]
    cases hp : parse_command input with
    | error e => rfl
    | ok res =>
      obtain ⟨o, tail⟩ := res
      cases o with
      | none => rfl
      | some cmd =>
        cases cmd with
        | Word k v => exact absurd hp parse_command_no_word
        | Dropp =>
          cases hs : f.stack with
          | nil => rfl
          | cons v st => exact ih _ tail
        | Dup =>
          cases hs : f.stack with
          | nil => rfl
          | cons v st => exact ih _ tail
        | Swap =>
          cases hs : f.stack with
          | nil => rfl
          | cons v2 rest2 =>
            cases rest2 with
            | nil => rfl
            | cons v1 st => exact ih _ tail
        | Over =>
          cases hs : f.stack with
          | nil => rfl
          | cons v2 rest2 =>
            cases rest2 with
            | nil => rfl
            | cons v1 st => exact ih _ tail

theorem suffix_eq_or_lt {a b : Str} (h : a <:+ b) : a = b ∨ a.length < b.length := by
  rcases Nat.lt_or_ge a.length b.length with hl | hl
  · exact Or.inr hl
  · exact Or.inl (h.eq_of_length (le_antisymm h.length_le hl))

/-! ### No hidden progress: a pass that leaves the input unchanged is
impossible on a nonempty input (the bare-numeral command branch would require
a token the numeric stage already consumes) -/

theorem toNat_ofNat_lower {m : Nat} (h1 : 97 ≤ m) (h2 : m ≤ 122) :
    (Char.ofNat m).toNat = m := by
  interval_cases m <;> decide

theorem lowerChar_fix_digit {c : Char} (h : isDigitCh (lowerChar c) = true) :
    lowerChar c = c := by
  unfold lowerChar at h ⊢
  split_ifs at h ⊢ with hc
  · exfalso
    rw [isDigitCh, decide_eq_true_eq] at h
    rw [toNat_ofNat_lower (by omega) (by omega)] at h
    omega
  · rfl

theorem lowerChar_eq_plus {c : Char} (h : lowerChar c = '+') : c = '+' := by
  unfold lowerChar at h
  split_ifs at h with hc
  · exfalso
    have h2 := congrArg Char.toNat h
    rw [toNat_ofNat_lower (by omega) (by omega)] at h2
    have h43 : ('+').toNat = 43 := rfl
    rw [h43] at h2
    omega
  · exact h

theorem parseNatDigits_isSome_all {l : Str}
    (h : (parseNatDigits l).isSome = true) : l ≠ [] ∧ l.all isDigitCh = true := by
  unfold parseNatDigits at h
  split_ifs at h with hc
  · exact hc
  · simp at h

theorem map_id_of {l : Str} {g : Char → Char} (h : ∀ x ∈ l, g x = x) :
    l.map g = l := by
  induction l with
  | nil => rfl
  | cons c cs ih => simp [h c (by simp), ih fun x hx => h x (by simp [hx])]

theorem map_lower_u32_fix {l : Str}
    (h : (parseU32R (l.map lowerChar)).isSome = true) : l.map lowerChar = l := by
  cases l with
  | nil => rfl
  | cons c cs =>
    rw [List.map_cons] at h ⊢
    simp only [parseU32R] at h
    by_cases hp : lowerChar c = '+'
    · rw [if_pos hp] at h
      have hall := (parseNatDigits_isSome_all (by simpa using h)).2
      rw [List.all_eq_true] at hall
      have hcs : cs.map lowerChar = cs := map_id_of fun x hx =>
        lowerChar_fix_digit (hall _ (List.mem_map_of_mem _ hx))
      rw [hcs, hp, lowerChar_eq_plus hp]
    · rw [if_neg hp] at h
      have hall := (parseNatDigits_isSome_all h).2
      rw [List.all_eq_true] at hall
      have hc2 : isDigitCh (lowerChar c) = true := hall _ (by simp)
      have hcs : cs.map lowerChar = cs := map_id_of fun x hx =>
        lowerChar_fix_digit (hall _ (List.mem_cons_of_mem _ (List.mem_map_of_mem _ hx)))
      rw [hcs, lowerChar_fix_digit hc2]

theorem parseU32R_isSome_int {l : Str} (h : (parseU32R l).isSome = true) :
    (parseIntR l).isSome = true := by
  cases l with
  | nil => simp [parseU32R] at h
  | cons c cs =>
    simp only [parseU32R] at h
    simp only [parseIntR]
    by_cases hp : c = '+'
    · subst hp
      rw [if_pos rfl] at h
      rw [if_neg (by decide), if_pos rfl]
      obtain ⟨n, hn⟩ := Option.isSome_iff_exists.1 (by simpa using h)
      rw [hn]
      rfl
    · rw [if_neg hp] at h
      have hall := (parseNatDigits_isSome_all h).2
      have hc : isDigitCh c = true := by
        rw [List.all_eq_true] at hall
        exact hall c (by simp)
      obtain ⟨hm, hpl⟩ := isDigitCh_ne hc
      rw [if_neg hm, if_neg hpl]
      obtain ⟨n, hn⟩ := Option.isSome_iff_exists.1 h
      rw [hn]
      rfl

theorem command_chain_ok_none {tok tail r : Str}
    (h : (if tok = ['d', 'r', 'o', 'p'] then
            (Except.ok (some Command.Dropp, tail) : Except Error (Option Command × Str))
          else if tok = ['d', 'u', 'p'] then .ok (some .Dup, tail)
          else if tok = ['s', 'w', 'a', 'p'] then .ok (some .Swap, tail)
          else if tok = ['o', 'v', 'e', 'r'] then .ok (some .Over, tail)
          else if (parseU32R tok).isSome then .ok (none, [])
          else .error .UnknownWord) = .ok (none, r)) :
    (parseU32R tok).isSome = true := by
  split_ifs at h <;> simp_all

theorem no_stall {input : Str} (hne : input ≠ [])
    (hd : (parse_digit input).1 = none) {r : Str}
    (hc : parse_command input = .ok (none, r)) : False := by
  cases input with
  | nil => exact hne rfl
  | cons c rest =>
    cases hpos : position isWs (c :: rest) with
    | some p =>
      simp only [parse_command, hpos] at hc
      have hu := command_chain_ok_none hc
      have hfix := map_lower_u32_fix hu
      rw [hfix] at hu
      have hint := parseU32R_isSome_int hu
      simp only [parse_digit, hpos] at hd
      cases hp2 : parseIntR ((c :: rest).take p) with
      | some w => rw [hp2] at hd; simp at hd
      | none => rw [hp2] at hint; simp at hint
    | none =>
      simp only [parse_command, hpos] at hc
      have hu := command_chain_ok_none hc
      have hfix := map_lower_u32_fix hu
      rw [hfix] at hu
      have hint := parseU32R_isSome_int hu
      simp only [parse_digit, hpos] at hd
      cases hp2 : parseIntR (c :: rest) with
      | some w => rw [hp2] at hd; simp at hd
      | none => rw [hp2] at hint; simp at hint

theorem evalDigitsGo_progress (n : Nat) (f : Forth) (input : Str) (hn : 1 ≤ n) :
    ((parse_digit input).1 = none ∧ (evalDigitsGo n f input).2 = input) ∨
      (evalDigitsGo n f input).2.length < input.length := by
  cases n with
  | zero => omega
  | succ m =>
    simp only [evalDigitsGo]
    cases hp : parse_digit input with
    | mk o tail =>
      cases o with
      | none => exact Or.inl ⟨rfl, rfl⟩
      | some v =>
        right
        dsimp only
        have h1 := (evalDigitsGo_suffix m ⟨v :: f.stack, f.words⟩ tail).length_le
        have h2 := parse_digit_some_length hp
        omega

theorem evalCommandsGo_stall (n : Nat) (f : Forth) (input : Str) (hn : 1 ≤ n)
    (h : (evalCommandsGo n f input).2 = .ok input) :
    ∃ r, parse_command input = .ok (none, r) := by
  cases n with
  | zero => omega
  | succ m =>
    simp only [evalCommandsGo] at h
    cases hp : parse_command input with
    | error e => rw [hp] at h; simp at h
    | ok res =>
      rw [hp] at h
      obtain ⟨o, tail⟩ := res
      cases o with
      | none => exact ⟨tail, rfl⟩
      | some cmd =>
        exfalso
        dsimp only at h
        have hlen := parse_command_some_length hp
        cases cmd with
        | Word k v => exact parse_command_no_word hp
        | Dropp =>
          cases hs : f.stack with
          | nil => rw [hs] at h; simp at h
          | cons v st =>
            rw [hs] at h
            have := (evalCommandsGo_suffix m _ tail _ h).length_le
            omega
        | Dup =>
          cases hs : f.stack with
          | nil => rw [hs] at h; simp at h
          | cons v st =>
            rw [hs] at h
            have := (evalCommandsGo_suffix m _ tail _ h).length_le
            omega
        | Swap =>
          cases hs : f.stack with
          | nil => rw [hs] at h; simp at h
          | cons v2 rest2 =>
            rw [hs] at h
            cases rest2 with
            | nil => simp at h
            | cons v1 st =>
              have := (evalCommandsGo_suffix m _ tail _ h).length_le
              omega
        | Over =>
          cases hs : f.stack with
          | nil => rw [hs] at h; simp at h
          | cons v2 rest2 =>
            rw [hs] at h
            cases rest2 with
            | nil => simp at h
            | cons v1 st =>
              have := (evalCommandsGo_suffix m _ tail _ h).length_le
              omega

theorem decl_none_of_no_colon {input : Str} (h : ':' ∉ input) :
    parse_word_delcaration input = .ok (none, []) := by
  cases input with
  | nil => rfl
  | cons c rest =>
    have hcne : c ≠ ':' := fun he => h (he ▸ List.mem_cons_self c rest)
    simp only [parse_word_delcaration, if_pos hcne]

theorem evalPass_progress (f : Forth) (input : Str) (hw : f.words = [])
    (hcol : ':' ∉ input) (hne : input ≠ []) :
    (∃ f1 e, evalPass f input = (f1, .error e)) ∨
    (∃ f1 input', evalPass f input = (f1, .ok input') ∧
      input'.length < input.length ∧ ':' ∉ input' ∧ f1.words = []) := by
  rcases hdig : eval_digits f input with ⟨d1, i1⟩
  have hdig' : evalDigitsGo (input.length + 1) f input = (d1, i1) := hdig
  have hi1_suf : i1 <:+ input := by
    have h := evalDigitsGo_suffix (input.length + 1) f input
    rw [hdig'] at h
    exact h
  have hw1 : d1.words = [] := by
    have h := evalDigitsGo_words (input.length + 1) f input
    rw [hdig'] at h
    rw [← hw]
    exact h
  have hprog1 : ((parse_digit input).1 = none ∧ i1 = input) ∨
      i1.length < input.length := by
    have h := evalDigitsGo_progress (input.length + 1) f input (by omega)
    rw [hdig'] at h
    exact h
  rcases hops : eval_operators d1 i1 with ⟨f2, r2⟩
  have hops' : evalOperatorsGo (i1.length + 1) d1 i1 = (f2, r2) := hops
  cases r2 with
  | error e =>
    left
    exact ⟨f2, e, by simp only [evalPass, hdig, hops]⟩
  | ok i2 =>
    have hi2_suf : i2 <:+ i1 :=
      evalOperatorsGo_suffix (i1.length + 1) d1 i1 i2 (by rw [hops'])
    have hw2 : f2.words = [] := by
      have h := evalOperatorsGo_words (i1.length + 1) d1 i1
      rw [hops'] at h
      rw [← hw1]
      exact h
    have hcol2 : ':' ∉ i2 := fun hm => hcol (hi1_suf.subset (hi2_suf.subset hm))
    have hdecl : eval_word_declarations f2 i2 = (f2, .ok i2) :=
      eval_word_declarations_of_none (decl_none_of_no_colon hcol2) f2
    have hword : eval_word f2 i2 = (f2, .ok i2) := eval_word_nil_words f2 hw2
    rcases hcmd : eval_commands f2 i2 with ⟨f3, r3⟩
    have hcmd' : evalCommandsGo (i2.length + 1) f2 i2 = (f3, r3) := hcmd
    cases r3 with
    | error e =>
      left
      exact ⟨f3, e, by simp only [evalPass, hdig, hops, hdecl, hword, hcmd]⟩
    | ok i3 =>
      have hi3_suf : i3 <:+ i2 :=
        evalCommandsGo_suffix (i2.length + 1) f2 i2 i3 (by rw [hcmd'])
      have hw3 : f3.words = [] := by
        have h := evalCommandsGo_words (i2.length + 1) f2 i2
        rw [hcmd'] at h
        rw [← hw2]
        exact h
      have hcol3 : ':' ∉ i3 := fun hm => hcol2 (hi3_suf.subset hm)
      have h3le := hi3_suf.length_le
      have h2le := hi2_suf.length_le
      have h1le := hi1_suf.length_le
      by_cases hstall : i3.length = input.length
      · exfalso
        have e3 : i3 = i2 := hi3_suf.eq_of_length (by omega)
        have e2 : i2 = i1 := hi2_suf.eq_of_length (by omega)
        have e1 : i1 = input := hi1_suf.eq_of_length (by omega)
        rcases hprog1 with ⟨hpd, -⟩ | hlt1
        · have hok2 : (evalCommandsGo (i2.length + 1) f2 i2).2 = .ok i2 := by
            rw [hcmd']
            simp [e3]
          obtain ⟨r, hpcmd⟩ := evalCommandsGo_stall (i2.length + 1) f2 i2 (by omega) hok2
          rw [e2, e1] at hpcmd
          exact no_stall hne hpd hpcmd
        · omega
      · right
        refine ⟨f3, i3, by simp only [evalPass, hdig, hops, hdecl, hword, hcmd], ?_, hcol3, hw3⟩
        omega

theorem evalLoop_terminates : ∀ (k : Nat) (f : Forth) (input : Str),
    input.length < k → f.words = [] → ':' ∉ input →
    (evalLoop k f input).isSome = true := by
  intro k
  induction k with
  | zero => intro f input h _ _; omega
  | succ k ih =>
    intro f input hlen hw hc
    by_cases hne : input = []
    · subst hne
      rw [evalLoop_succ, if_pos rfl]
      rfl
    · rcases evalPass_progress f input hw hc hne with ⟨f1, e, hp⟩ |
        ⟨f1, i', hp, hlt, hc', hw'⟩
      · rw [evalLoop_succ, if_neg hne, hp]
        rfl
      · rw [evalLoop_succ, if_neg hne, hp]
        exact ih f1 i' (by omega) hw' hc'

theorem filter_no_colon {input : Str} (h : ':' ∉ input) :
    ':' ∉ filter_non_words input := by
  intro hmem
  unfold filter_non_words at hmem
  rw [List.mem_map] at hmem
  obtain ⟨c, hc, heq⟩ := hmem
  by_cases hwc : (isWs c || isCtl c) = true
  · rw [if_pos hwc] at heq
    exact absurd heq (by decide)
  · rw [if_neg hwc] at heq
    exact h (heq ▸ hc)

/-- C2 amended: every call to `evaluate` on an interpreter whose dictionary
is empty, with an input containing no `':'` (so no word can be declared or
expanded), runs to completion and returns success or one of the four errors.
The unrestricted claim fails: see the counterexample, where a user word whose
expansion mentions itself keeps the driver loop running forever. -/
theorem c2_termination_no_words (f : Forth) (input : Str)
    (hw : f.words = []) (hc : ':' ∉ input) : Terminates f input := by
  refine ⟨(filter_non_words input).length + 1, ?_⟩
  unfold eval
  exact evalLoop_terminates _ f _ (by omega) hw (filter_no_colon hc)

/-- Witness for C2's amended theorem at a concrete program. -/
theorem c2_termination_no_words_witness : Terminates Forth.new "1 2 +".data :=
  c2_termination_no_words Forth.new "1 2 +".data rfl (by decide)

/-! ### Byte-accurate slicing model (C10)

Rust's `&s[..n]` / `&s[n..]` slice at BYTE offsets and panic when `n` is not
a character boundary (or exceeds the byte length).  `byteSplit` models the
pair of slices; `none` is the panic.  The `C`-suffixed parsers and stages
repeat the originals but perform every slice the source performs through
`byteSplit`, using the char-counted positions the source computes with
`chars().position`, exactly as the source uses them as byte indexes. -/

def byteSplit : Str → Nat → Option (Str × Str)
  | l, 0 => some ([], l)
  | [], _ + 1 => none
  | c :: cs, n + 1 =>
    if c.utf8Size ≤ n + 1 then
      (byteSplit cs (n + 1 - c.utf8Size)).map fun q => (c :: q.1, q.2)
    else none

/-- Outcome of a fueled checked run: out of fuel, a slicing panic, or a
result (final state plus optional error). -/
inductive CRes where
  | fuelOut : CRes
  | panic : CRes
  | done : Forth → Option Error → CRes
deriving DecidableEq, Repr

/-- `parse_digit` with byte-checked slicing. -/
def parse_digitC (input : Str) : Option (Option Value × Str) :=
  match position isWs input with
  | some p =>
    match byteSplit input p with
    | none => none
    | some (hd, tl) =>
      match parseIntR hd with
      | some v => some (some v, trimLeft tl)
      | none => some (none, trimBoth input)
  | none =>
    match parseIntR input with
    | some v => some (some v, [])
    | none => some (none, input)

/-- `parse_operator` with the byte-checked one-byte slice `&input[..1]`. -/
def parse_operatorC (input : Str) : Option (Option Operator × Str) :=
  match input with
  | [] => some (none, [])
  | _ =>
    match byteSplit input 1 with
    | none => none
    | some (hd, rest) =>
      let tail := trimLeft rest
      if hd = ['+'] then some (some .Plus, tail)
      else if hd = ['-'] then some (some .Minus, tail)
      else if hd = ['/'] then some (some .Divide, tail)
      else if hd = ['*'] then some (some .Multiply, tail)
      else some (none, input)

/-- `parse_command` with byte-checked slicing. -/
def parse_commandC (input : Str) : Option (Except Error (Option Command × Str)) :=
  match input with
  | [] => some (.ok (none, []))
  | _ =>
    match position isWs input with
    | some p =>
      match byteSplit input p with
      | none => none
      | some (hd, tl) =>
        let tok := hd.map lowerChar
        let tail := trimLeft tl
        if tok = ['d', 'r', 'o', 'p'] then some (.ok (some .Dropp, tail))
        else if tok = ['d', 'u', 'p'] then some (.ok (some .Dup, tail))
        else if tok = ['s', 'w', 'a', 'p'] then some (.ok (some .Swap, tail))
        else if tok = ['o', 'v', 'e', 'r'] then some (.ok (some .Over, tail))
        else if (parseU32R tok).isSome then some (.ok (none, []))
        else some (.error .UnknownWord)
    | none =>
      let tok := input.map lowerChar
      if tok = ['d', 'r', 'o', 'p'] then some (.ok (some .Dropp, []))
      else if tok = ['d', 'u', 'p'] then some (.ok (some .Dup, []))
      else if tok = ['s', 'w', 'a', 'p'] then some (.ok (some .Swap, []))
      else if tok = ['o', 'v', 'e', 'r'] then some (.ok (some .Over, []))
      else if (parseU32R tok).isSome then some (.ok (none, []))
      else some (.error .UnknownWord)

/-- `parse_word` with byte-checked slicing. -/
def parse_wordC (words : List (Str × Str)) (input : Str) : Option (Option Str × Str) :=
  match position isWs input with
  | some p =>
    match byteSplit input p with
    | none => none
    | some (hd, tl) =>
      match words.lookup (hd.map lowerChar) with
      | some v => some (some (v ++ tl), [])
      | none => some (none, input)
  | none =>
    match words.lookup (input.map lowerChar) with
    | some v => some (some (v ++ []), [])
    | none => some (none, input)

def evalDigitsGoC : Nat → Forth → Str → Option (Forth × Str)
  | 0, f, input => some (f, input)
  | n + 1, f, input =>
    match parse_digitC input with
    | none => none
    | some (some v, tail) => evalDigitsGoC n ⟨v :: f.stack, f.words⟩ tail
    | some (none, _) => some (f, input)

def eval_digitsC (f : Forth) (input : Str) : Option (Forth × Str) :=
  evalDigitsGoC (input.length + 1) f input

def evalOperatorsGoC : Nat → Forth → Str → Option (Forth × Except Error Str)
  | 0, f, input => some (f, .ok input)
  | n + 1, f, input =>
    match parse_operatorC input with
    | none => none
    | some (none, _) => some (f, .ok input)
    | some (some op, tail) =>
      match f.stack with
      | [] => some (f, .error .StackUnderflow)
      | [_] => some (⟨[], f.words⟩, .error .StackUnderflow)
      | v2 :: v1 :: st =>
        match op with
        | .Plus => evalOperatorsGoC n ⟨(v1 + v2) :: st, f.words⟩ tail
        | .Minus => evalOperatorsGoC n ⟨(v1 - v2) :: st, f.words⟩ tail
        | .Divide =>
          if v2 = 0 then some (⟨st, f.words⟩, .error .DivisionByZero)
          else evalOperatorsGoC n ⟨Int.tdiv v1 v2 :: st, f.words⟩ tail
        | .Multiply => evalOperatorsGoC n ⟨(v1 * v2) :: st, f.words⟩ tail

def eval_operatorsC (f : Forth) (input : Str) : Option (Forth × Except Error Str) :=
  evalOperatorsGoC (input.length + 1) f input

def eval_wordC (f : Forth) (input : Str) : Option (Forth × Except Error Str) :=
  match parse_wordC f.words input with
  | none => none
  | some (some value, tail) => some (f, .ok (value ++ tail))
  | some (none, _) => some (f, .ok input)

def evalCommandsGoC : Nat → Forth → Str → Option (Forth × Except Error Str)
  | 0, f, input => some (f, .ok input)
  | n + 1, f, input =>
    match parse_commandC input with
    | none => none
    | some (.error e) => some (f, .error e)
    | some (.ok (none, _)) => some (f, .ok input)
    | some (.ok (some cmd, tail)) =>
      match cmd with
      | .Swap =>
        match f.stack with
        | [] => some (f, .error .StackUnderflow)
        | [_] => some (⟨[], f.words⟩, .error .StackUnderflow)
        | v2 :: v1 :: st => evalCommandsGoC n ⟨v1 :: v2 :: st, f.words⟩ tail
      | .Dropp =>
        match f.stack with
        | [] => some (f, .error .StackUnderflow)
        | _ :: st => evalCommandsGoC n ⟨st, f.words⟩ tail
      | .Dup =>
        match f.stack with
        | [] => some (f, .error .StackUnderflow)
        | v :: st => evalCommandsGoC n ⟨v :: v :: st, f.words⟩ tail
      | .Over =>
        match f.stack with
        | [] => some (f, .error .StackUnderflow)
        | [_] => some (⟨[], f.words⟩, .error .StackUnderflow)
        | v2 :: v1 :: st =>
          evalCommandsGoC n ⟨v1 :: v2 :: v1 :: st, f.words⟩ tail
      | .Word k v => evalCommandsGoC n ⟨f.stack, (k, v) :: f.words⟩ tail

def eval_commandsC (f : Forth) (input : Str) : Option (Forth × Except Error Str) :=
  evalCommandsGoC (input.length + 1) f input

def evalPassC (f : Forth) (input : Str) : Option (Forth × Except Error Str) :=
  match eval_digitsC f input with
  | none => none
  | some (f1, input1) =>
    match eval_operatorsC f1 input1 with
    | none => none
    | some (f2, .error e) => some (f2, .error e)
    | some (f2, .ok input2) =>
      match eval_word_declarations f2 input2 with
      | (f3, .error e) => some (f3, .error e)
      | (f3, .ok input3) =>
        match eval_wordC f3 input3 with
        | none => none
        | some (f4, .error e) => some (f4, .error e)
        | some (f4, .ok input4) => eval_commandsC f4 input4

def evalLoopC : Nat → Forth → Str → CRes
  | 0, _, _ => .fuelOut
  | n + 1, f, input =>
    if input = [] then .done f none
    else
      match evalPassC f input with
      | none => .panic
      | some (f', .error e) => .done f' (some e)
      | some (f', .ok input') => evalLoopC n f' input'

def evalC (fuel : Nat) (f : Forth) (input : Str) : CRes :=
  evalLoopC fuel f (filter_non_words input)

example : evalC 1 Forth.new ['é'] = .panic := by decide

/-! ### ASCII inputs never panic -/

/-- Every character fits in one UTF-8 byte. -/
def asciiStr (l : Str) : Bool := l.all fun c => decide (c.toNat ≤ 127)

/-- Every dictionary value (the only dictionary text re-injected into the
input stream) is ASCII. -/
def asciiState (f : Forth) : Prop := ∀ kv ∈ f.words, asciiStr kv.2 = true

theorem asciiStr_mono {l t : Str} (hsub : t ⊆ l) (h : asciiStr l = true) :
    asciiStr t = true := by
  rw [asciiStr, List.all_eq_true] at h ⊢
  exact fun c hc => h c (hsub hc)

theorem asciiStr_append {a b : Str} (ha : asciiStr a = true)
    (hb : asciiStr b = true) : asciiStr (a ++ b) = true := by
  rw [asciiStr, List.all_append]
  rw [asciiStr] at ha hb
  simp [ha, hb]

theorem utf8Size_ascii {c : Char} (h : c.toNat ≤ 127) : c.utf8Size = 1 := by
  unfold Char.utf8Size
  dsimp only
  rw [if_pos]
  exact h

theorem byteSplit_ascii : ∀ (p : Nat) (l : Str), asciiStr l = true →
    p ≤ l.length → byteSplit l p = some (l.take p, l.drop p) := by
  intro p
  induction p with
  | zero => intro l _ _; cases l <;> rfl
  | succ p ih =>
    intro l hA hp
    cases l with
    | nil => simp at hp
    | cons c cs =>
      rw [asciiStr, List.all_cons, Bool.and_eq_true] at hA
      have h1 : c.utf8Size = 1 := utf8Size_ascii (by simpa using hA.1)
      simp only [byteSplit, h1, if_pos (by omega : 1 ≤ p + 1), Nat.add_sub_cancel]
      rw [ih cs hA.2 (by simpa using hp)]
      simp

theorem position_lt {input : Str} {p : Nat}
    (h : position isWs input = some p) : p < input.length := by
  induction input generalizing p with
  | nil => simp [position] at h
  | cons c cs ih =>
    by_cases hc : isWs c
    · have hp0 : p = 0 := by simp [position, hc] at h; omega
      simp [hp0]
    · rw [show position isWs (c :: cs) = (position isWs cs).map (· + 1) by
        simp [position, hc]] at h
      rw [Option.map_eq_some'] at h
      obtain ⟨q, hq, rfl⟩ := h
      have := ih hq
      simp only [List.length_cons]
      omega

theorem parse_digitC_ascii {input : Str} (hA : asciiStr input = true) :
    parse_digitC input = some (parse_digit input) := by
  cases hpos : position isWs input with
  | none =>
    simp only [parse_digitC, parse_digit, hpos]
    cases hp : parseIntR input <;> simp
  | some p =>
    have hbs := byteSplit_ascii p input hA (le_of_lt (position_lt hpos))
    simp only [parse_digitC, parse_digit, hpos, hbs]
    cases hp : parseIntR (input.take p) <;> simp

theorem parse_operatorC_ascii {input : Str} (hA : asciiStr input = true) :
    parse_operatorC input = some (parse_operator input) := by
  cases input with
  | nil => rfl
  | cons c cs =>
    rw [asciiStr, List.all_cons, Bool.and_eq_true] at hA
    have h1 : c.utf8Size = 1 := utf8Size_ascii (by simpa using hA.1)
    have hbs : byteSplit (c :: cs) 1 = some ([c], cs) := by
      simp [byteSplit, h1]
    simp only [parse_operatorC, parse_operator, hbs]
    split_ifs <;> simp_all

theorem parse_commandC_ascii {input : Str} (hA : asciiStr input = true) :
    parse_commandC input = some (parse_command input) := by
  cases input with
  | nil => rfl
  | cons c cs =>
    cases hpos : position isWs (c :: cs) with
    | none =>
      simp only [parse_commandC, parse_command, hpos]
      split_ifs <;> rfl
    | some p =>
      have hbs := byteSplit_ascii p (c :: cs) hA (le_of_lt (position_lt hpos))
      simp only [parse_commandC, parse_command, hpos, hbs]
      split_ifs <;> rfl

theorem parse_wordC_ascii {words : List (Str × Str)} {input : Str}
    (hA : asciiStr input = true) :
    parse_wordC words input = some (parse_word words input) := by
  cases hpos : position isWs input with
  | none =>
    simp only [parse_wordC, parse_word, hpos]
    cases hl : words.lookup (input.map lowerChar) <;> simp
  | some p =>
    have hbs := byteSplit_ascii p input hA (le_of_lt (position_lt hpos))
    simp only [parse_wordC, parse_word, hpos, hbs]
    cases hl : words.lookup ((input.take p).map lowerChar) <;> simp

theorem evalDigitsGoC_ascii : ∀ (n : Nat) (f : Forth) (input : Str),
    asciiStr input = true →
    evalDigitsGoC n f input = some (evalDigitsGo n f input) := by
  intro n
  induction n with
  | zero => intro f input _; rfl
  | succ n ih =>
    intro f input hA
    simp only [evalDigitsGoC, evalDigitsGo, parse_digitC_ascii hA]
    cases hp : parse_digit input with
    | mk o tail =>
      cases o with
      | none => rfl
      | some v =>
        exact ih _ tail (asciiStr_mono (parse_digit_some_suffix hp).subset hA)

theorem evalOperatorsGoC_ascii : ∀ (n : Nat) (f : Forth) (input : Str),
    asciiStr input = true →
    evalOperatorsGoC n f input = some (evalOperatorsGo n f input) := by
  intro n
  induction n with
  | zero => intro f input _; rfl
  | succ n ih =>
    intro f input hA
    simp only [evalOperatorsGoC, evalOperatorsGo, parse_operatorC_ascii hA]
    cases hp : parse_operator input with
    | mk o tail =>
      cases o with
      | none => rfl
      | some op =>
        have hAt : asciiStr tail = true :=
          asciiStr_mono (parse_operator_some_suffix hp).subset hA
        cases hs : f.stack with
        | nil => rfl
        | cons v2 rest2 =>
          cases rest2 with
          | nil => rfl
          | cons v1 st =>
            cases op with
            | Plus => exact ih _ tail hAt
            | Minus => exact ih _ tail hAt
            | Multiply => exact ih _ tail hAt
            | Divide =>
              dsimp only
              by_cases hz : v2 = 0
              · rw [if_pos hz, if_pos hz]
              · rw [if_neg hz, if_neg hz]
                exact ih _ tail hAt

theorem evalCommandsGoC_ascii : ∀ (n : Nat) (f : Forth) (input : Str),
    asciiStr input = true →
    evalCommandsGoC n f input = some (evalCommandsGo n f input) := by
  intro n
  induction n with
  | zero => intro f input _; rfl
  | succ n ih =>
    intro f input hA
    simp only [evalCommandsGoC, evalCommandsGo, parse_commandC_ascii hA]
    cases hp : parse_command input with
    | error e => rfl
    | ok res =>
      obtain ⟨o, tail⟩ := res
      cases o with
      | none => rfl
      | some cmd =>
        have hAt : asciiStr tail = true :=
          asciiStr_mono (parse_command_some_suffix hp).subset hA
        cases cmd with
        | Word k v => exact ih _ tail hAt
        | Dropp =>
          cases hs : f.stack with
          | nil => rfl
          | cons v st => exact ih _ tail hAt
        | Dup =>
          cases hs : f.stack with
          | nil => rfl
          | cons v st => exact ih _ tail hAt
        | Swap =>
          cases hs : f.stack with
          | nil => rfl
          | cons v2 rest2 =>
            cases rest2 with
            | nil => rfl
            | cons v1 st => exact ih _ tail hAt
        | Over =>
          cases hs : f.stack with
          | nil => rfl
          | cons v2 rest2 =>
            cases rest2 with
            | nil => rfl
            | cons v1 st => exact ih _ tail hAt

theorem eval_wordC_ascii {f : Forth} {input : Str} (hA : asciiStr input = true) :
    eval_wordC f input = some (eval_word f input) := by
  simp only [eval_wordC, eval_word, parse_wordC_ascii hA]
  cases hp : parse_word f.words input with
  | mk o tail =>
    cases o with
    | none => rfl
    | some v => rfl

theorem trimRight_subset (l : Str) : trimRight l ⊆ l := by
  intro c hc
  rw [trimRight, List.mem_reverse] at hc
  have := (List.dropWhile_sublist (l := l.reverse) (p := isWs)).subset hc
  rwa [List.mem_reverse] at this

theorem trimBoth_subset (l : Str) : trimBoth l ⊆ l := fun _ hc =>
  (List.dropWhile_sublist (l := l) (p := isWs)).subset
    (trimRight_subset (trimLeft l) hc)

theorem parse_word_decl_value_subset {input : Str} {k v tail : Str}
    (h : parse_word_delcaration input = .ok (some (.Word k v), tail)) :
    v ⊆ input ∧ tail ⊆ input := by
  cases input with
  | nil => simp [parse_word_delcaration] at h
  | cons c0 rest =>
    by_cases hcol : c0 ≠ ':'
    · simp [parse_word_delcaration, hcol] at h
    · simp only [parse_word_delcaration, if_neg hcol] at h
      by_cases hbad : ¬((c0 :: rest).any fun c => decide (c = ';')) = true ∨
          trimBoth (((c0 :: rest).drop 1).takeWhile (fun c => c != ';')) = [] ∨
          ((trimBoth (((c0 :: rest).drop 1).takeWhile (fun c => c != ';'))).dropWhile
            (fun c => c != ' ')).drop 1 = []
      · rw [if_pos hbad] at h
        exact Except.noConfusion h
      · rw [if_neg hbad] at h
        split at h
        next k0 hk =>
          by_cases hnum : isNumericCh k0 = true
          · rw [if_pos hnum] at h
            exact Except.noConfusion h
          · rw [if_neg hnum] at h
            injection h with h1
            injection h1 with h1 h2
            injection h1 with h1
            obtain ⟨-, hv⟩ : _ ∧ ((trimBoth (((c0 :: rest).drop 1).takeWhile
                (fun c => c != ';'))).dropWhile (fun c => c != ' ')).drop 1 = v := by
              constructor
              · exact congrArg (fun x => match x with | Command.Word a _ => a | _ => k) h1
              · exact congrArg (fun x => match x with | Command.Word _ b => b | _ => v) h1
            constructor
            · rw [← hv]
              intro x hx
              have hx2 := List.drop_subset _ _ hx
              have hx3 := (List.dropWhile_sublist (p := fun c => c != ' ')
                (l := trimBoth (((c0 :: rest).drop 1).takeWhile (fun c => c != ';')))).subset hx2
              have hx4 := trimBoth_subset _ hx3
              have hx5 := (List.takeWhile_sublist (p := fun c => c != ';')
                (l := (c0 :: rest).drop 1)).subset hx4
              exact List.drop_subset _ _ hx5
            · rw [← h2]
              intro x hx
              have hx2 := trimBoth_subset _ hx
              have hx3 := List.drop_subset _ _ hx2
              exact (List.dropWhile_sublist (p := fun c => c != ';')
                (l := c0 :: rest)).subset hx3
        next hk => exact Except.noConfusion h

theorem evalWordDeclsGo_ascii : ∀ (n : Nat) (f : Forth) (input : Str),
    asciiStr input = true → asciiState f →
    asciiState (evalWordDeclsGo n f input).1 ∧
      (∀ i', (evalWordDeclsGo n f input).2 = .ok i' → asciiStr i' = true) := by
  intro n
  induction n with
  | zero =>
    intro f input hA hS
    refine ⟨hS, fun i' h => ?_⟩
    obtain rfl : input = i' := by simpa [evalWordDeclsGo] using h
    exact hA
  | succ n ih =>
    intro f input hA hS
    simp only [evalWordDeclsGo]
    cases hp : parse_word_delcaration input with
    | error e =>
      refine ⟨hS, fun i' h => ?_⟩
      simp at h
    | ok res =>
      obtain ⟨o, tail⟩ := res
      cases o with
      | none =>
        refine ⟨hS, fun i' h => ?_⟩
        obtain rfl : input = i' := by dsimp only at h; simpa using h
        exact hA
      | some cmd =>
        cases cmd with
        | Word k v =>
          obtain ⟨hv, ht⟩ := parse_word_decl_value_subset hp
          refine ih ⟨f.stack, (k, v) :: f.words⟩ tail (asciiStr_mono ht hA) ?_
          intro kv hkv
          rw [List.mem_cons] at hkv
          rcases hkv with rfl | hkv
          · exact asciiStr_mono hv hA
          · exact hS kv hkv
        | Dropp =>
          refine ⟨hS, fun i' h => ?_⟩
          obtain rfl : input = i' := by dsimp only at h; simpa using h
          exact hA
        | Dup =>
          refine ⟨hS, fun i' h => ?_⟩
          obtain rfl : input = i' := by dsimp only at h; simpa using h
          exact hA
        | Swap =>
          refine ⟨hS, fun i' h => ?_⟩
          obtain rfl : input = i' := by dsimp only at h; simpa using h
          exact hA
        | Over =>
          refine ⟨hS, fun i' h => ?_⟩
          obtain rfl : input = i' := by dsimp only at h; simpa using h
          exact hA

theorem lookup_mem {l : List (Str × Str)} {a b : Str}
    (h : l.lookup a = some b) : (a, b) ∈ l := by
  induction l with
  | nil => simp [List.lookup] at h
  | cons kv es ih =>
    obtain ⟨k, v⟩ := kv
    by_cases hak : (a == k) = true
    · simp only [List.lookup, hak] at h
      obtain rfl : v = b := by simpa using h
      have : a = k := by simpa using hak
      subst this
      exact List.mem_cons_self _ _
    · rw [Bool.not_eq_true] at hak
      simp only [List.lookup, hak] at h
      exact List.mem_cons_of_mem _ (ih h)

theorem eval_word_ascii {f : Forth} {input : Str} (hA : asciiStr input = true)
    (hS : asciiState f) :
    ∃ i', eval_word f input = (f, .ok i') ∧ asciiStr i' = true := by
  unfold eval_word parse_word
  cases hpos : position isWs input with
  | some p =>
    cases hl : f.words.lookup ((input.take p).map lowerChar) with
    | none =>
      refine ⟨input, ?_, hA⟩
      dsimp only
      rw [hl]
    | some v =>
      refine ⟨(v ++ input.drop p) ++ [], ?_, ?_⟩
      · dsimp only
        rw [hl]
      · have hv : asciiStr v = true := hS _ (lookup_mem hl)
        have hd : asciiStr (input.drop p) = true :=
          asciiStr_mono (List.drop_subset _ _) hA
        exact asciiStr_append (asciiStr_append hv hd) (by decide)
  | none =>
    cases hl : f.words.lookup (input.map lowerChar) with
    | none =>
      refine ⟨input, ?_, hA⟩
      dsimp only
      rw [hl]
    | some v =>
      refine ⟨(v ++ []) ++ [], ?_, ?_⟩
      · dsimp only
        rw [hl]
      · have hv : asciiStr v = true := hS _ (lookup_mem hl)
        exact asciiStr_append (asciiStr_append hv (by decide)) (by decide)

theorem evalPassC_ascii (f : Forth) (input : Str) (hA : asciiStr input = true)
    (hS : asciiState f) :
    evalPassC f input = some (evalPass f input) ∧
      ∀ f' i', evalPass f input = (f', .ok i') →
        asciiStr i' = true ∧ asciiState f' := by
  rcases hdig : eval_digits f input with ⟨f1, i1⟩
  have hdig' : evalDigitsGo (input.length + 1) f input = (f1, i1) := hdig
  have hdigC : eval_digitsC f input = some (f1, i1) := by
    unfold eval_digitsC
    rw [evalDigitsGoC_ascii _ _ _ hA, hdig']
  have hA1 : asciiStr i1 = true := by
    have h := evalDigitsGo_suffix (input.length + 1) f input
    rw [hdig'] at h
    exact asciiStr_mono h.subset hA
  have hS1 : asciiState f1 := by
    have h := evalDigitsGo_words (input.length + 1) f input
    rw [hdig'] at h
    intro kv hkv
    exact hS kv (h ▸ hkv)
  rcases hops : eval_operators f1 i1 with ⟨f2, r2⟩
  have hops' : evalOperatorsGo (i1.length + 1) f1 i1 = (f2, r2) := hops
  have hopsC : eval_operatorsC f1 i1 = some (f2, r2) := by
    unfold eval_operatorsC
    rw [evalOperatorsGoC_ascii _ _ _ hA1, hops']
  have hS2 : asciiState f2 := by
    have h := evalOperatorsGo_words (i1.length + 1) f1 i1
    rw [hops'] at h
    intro kv hkv
    exact hS1 kv (h ▸ hkv)
  cases r2 with
  | error e =>
    constructor
    · simp only [evalPassC, hdigC, hopsC, evalPass, hdig, hops]
    · intro f' i' hpass
      rw [show evalPass f input = (f2, .error e) by
        simp only [evalPass, hdig, hops]] at hpass
      exact absurd hpass (by simp)
  | ok i2 =>
    have hA2 : asciiStr i2 = true := asciiStr_mono
      (evalOperatorsGo_suffix (i1.length + 1) f1 i1 i2 (by rw [hops'])).subset hA1
    rcases hdecl : eval_word_declarations f2 i2 with ⟨f3, r3⟩
    have hdecl' : evalWordDeclsGo (i2.length + 1) f2 i2 = (f3, r3) := hdecl
    have hdw := evalWordDeclsGo_ascii (i2.length + 1) f2 i2 hA2 hS2
    rw [hdecl'] at hdw
    have hS3 : asciiState f3 := hdw.1
    cases r3 with
    | error e =>
      constructor
      · simp only [evalPassC, hdigC, hopsC, evalPass, hdig, hops, hdecl]
      · intro f' i' hpass
        rw [show evalPass f input = (f3, .error e) by
          simp only [evalPass, hdig, hops, hdecl]] at hpass
        exact absurd hpass (by simp)
    | ok i3 =>
      have hA3 : asciiStr i3 = true := hdw.2 i3 rfl
      obtain ⟨i4, hword, hA4⟩ := eval_word_ascii hA3 hS3
      have hwordC : eval_wordC f3 i3 = some (f3, .ok i4) := by
        rw [eval_wordC_ascii hA3, hword]
      rcases hcmd : eval_commands f3 i4 with ⟨f5, r5⟩
      have hcmd' : evalCommandsGo (i4.length + 1) f3 i4 = (f5, r5) := hcmd
      have hcmdC : eval_commandsC f3 i4 = some (f5, r5) := by
        unfold eval_commandsC
        rw [evalCommandsGoC_ascii _ _ _ hA4, hcmd']
      have hS5 : asciiState f5 := by
        have h := evalCommandsGo_words (i4.length + 1) f3 i4
        rw [hcmd'] at h
        intro kv hkv
        exact hS3 kv (h ▸ hkv)
      have hpassEq : evalPass f input = (f5, r5) := by
        simp only [evalPass, hdig, hops, hdecl, hword, hcmd]
      constructor
      · rw [hpassEq]
        simp only [evalPassC, hdigC, hopsC, hdecl, hwordC, hcmdC]
      · intro f' i' hpass
        rw [hpassEq] at hpass
        cases r5 with
        | error e => exact absurd hpass (by simp)
        | ok i5 =>
          obtain ⟨rfl, rfl⟩ : f5 = f' ∧ i5 = i' := by simpa using hpass
          refine ⟨?_, hS5⟩
          exact asciiStr_mono
            (evalCommandsGo_suffix (i4.length + 1) f3 i4 _ (by rw [hcmd'])).subset hA4

theorem evalLoopC_succ (n : Nat) (f : Forth) (input : Str) :
    evalLoopC (n + 1) f input =
      if input = [] then .done f none
      else
        match evalPassC f input with
        | none => .panic
        | some (f', .error e) => .done f' (some e)
        | some (f', .ok input') => evalLoopC n f' input' := rfl

theorem evalLoopC_no_panic : ∀ (n : Nat) (f : Forth) (input : Str),
    asciiStr input = true → asciiState f → evalLoopC n f input ≠ .panic := by
  intro n
  induction n with
  | zero => intro f input _ _ h; exact CRes.noConfusion h
  | succ n ih =>
    intro f input hA hS
    by_cases hne : input = []
    · subst hne
      rw [evalLoopC_succ, if_pos rfl]
      intro h
      exact CRes.noConfusion h
    · rw [evalLoopC_succ, if_neg hne, (evalPassC_ascii f input hA hS).1]
      rcases hp : evalPass f input with ⟨f', r⟩
      cases r with
      | error e => intro h; exact CRes.noConfusion h
      | ok i' =>
        obtain ⟨hA', hS'⟩ := (evalPassC_ascii f input hA hS).2 f' i' hp
        exact ih f' i' hA' hS'

theorem asciiStr_filter {input : Str} (h : asciiStr input = true) :
    asciiStr (filter_non_words input) = true := by
  rw [asciiStr, List.all_eq_true] at h ⊢
  intro c hc
  rw [filter_non_words, List.mem_map] at hc
  obtain ⟨x, hx, rfl⟩ := hc
  by_cases hwx : (isWs x || isCtl x) = true
  · rw [if_pos hwx]; decide
  · rw [if_neg hwx]; exact h x hx

/-- C10: on inputs made only of ASCII characters (with ASCII dictionary
values, as every dictionary value comes from earlier input text), no byte
slice inside `evaluate` is out of bounds and nothing panics; the guarantee
does not extend to arbitrary Unicode input: on `"é"` the operator
recognizer's one-byte slice `&input[..1]` falls inside the two-byte
character and evaluate panics instead of returning a result. -/
theorem c10_ascii_slicing :
    (∀ (fuel : Nat) (f : Forth) (input : Str),
        asciiStr input = true → asciiState f →
        evalC fuel f input ≠ .panic) ∧
    evalC 1 Forth.new ['é'] = .panic := by
  refine ⟨?_, by decide⟩
  intro fuel f input hA hS
  unfold evalC
  exact evalLoopC_no_panic fuel f _ (asciiStr_filter hA) hS

/-- Witness for C10: a concrete ASCII run does not panic. -/
theorem c10_ascii_slicing_witness :
    evalC 3 Forth.new "1 2 +".data ≠ .panic :=
  c10_ascii_slicing.1 3 Forth.new "1 2 +".data (by decide)
    (fun kv hkv => absurd hkv (by simp [Forth.new]))
